import Mathlib

/-!
Verification of the ApexFlow execution engine core against its specification.

The definitions below are a shallow embedding of the Python sources:
  - `src/memory/context.py`   (ExecutionContextManager)
  - `src/core/loop.py`        (AgentLoop4, retry_with_backoff)
  - `src/core/service_registry.py` (tool routing error model)

Python dicts are modelled as association lists over `String` keys (`dictInsert`
reproduces dict-update semantics: overwrite in place, append if new); Python
JSON-like values are modelled by the inductive `Val`; task statuses by the
closed enumeration `Status` (the eight statuses named by the state machine);
monetary cost (Python floats) by `ℚ`.  Asynchronous effects (awaits, event
bus publications, fire-and-forget persistence saves, sleeps, logging) have no
bearing on the verified properties and are erased; external collaborators
(worker invocations, tool handlers, user answers) are supplied as explicit
environment parameters.
-/

namespace ApexFlow

/-- Task status values of the execution graph (spec section 3). -/
inductive Status where
  | pending
  | running
  | completed
  | failed
  | waiting_input
  | skipped
  | stopped
  | cost_exceeded
deriving Repr, DecidableEq

/-- Graph-level status values. -/
inductive GStatus where
  | running
  | completed
  | failed
  | stopped
  | cost_exceeded
deriving Repr, DecidableEq

/-- Python JSON-like values (None, bool, int, str, list, dict). -/
inductive Val where
  | vnull
  | vbool (b : Bool)
  | vint (n : Int)
  | vstr (s : String)
  | vlist (xs : List Val)
  | vdict (fields : List (String × Val))
deriving Repr

mutual

/-- Structural (Python `==`) equality on values. -/
def Val.beq : Val → Val → Bool
  | .vnull, .vnull => true
  | .vbool a, .vbool b => a == b
  | .vint a, .vint b => a == b
  | .vstr a, .vstr b => a == b
  | .vlist a, .vlist b => Val.beqList a b
  | .vdict a, .vdict b => Val.beqFields a b
  | _, _ => false

/-- Element-wise equality on value lists. -/
def Val.beqList : List Val → List Val → Bool
  | [], [] => true
  | a :: as1, b :: bs => Val.beq a b && Val.beqList as1 bs
  | _, _ => false

/-- Element-wise equality on dict field lists. -/
def Val.beqFields : List (String × Val) → List (String × Val) → Bool
  | [], [] => true
  | (ka, va) :: as1, (kb, vb) :: bs => ka == kb && Val.beq va vb && Val.beqFields as1 bs
  | _, _ => false

end

instance : BEq Val := ⟨Val.beq⟩

/-- Python truthiness of a value (`if output.get(...)`). -/
def Val.truthy : Val → Bool
  | .vnull => false
  | .vbool b => b
  | .vint n => n != 0
  | .vstr s => !s.isEmpty
  | .vlist xs => !xs.isEmpty
  | .vdict fs => !fs.isEmpty

/-- Dict field lookup: `d.get(k)` returning `none` when the key is absent
or the value is not a dict. -/
def Val.get? : Val → String → Option Val
  | .vdict fs, k => fs.lookup k
  | _, _ => none

/-- Dict field lookup with a default: `d.get(k, default)`. -/
def Val.getD (v : Val) (k : String) (default : Val) : Val :=
  (v.get? k).getD default

/-- Python `k in d` membership test on a dict value. -/
def Val.hasKey : Val → String → Bool
  | .vdict fs, k => fs.any (fun p => p.1 == k)
  | _, _ => false

/-- Whether a value is a dict (`isinstance(output, dict)`). -/
def Val.isDict : Val → Bool
  | .vdict _ => true
  | _ => false

/-- Python dict update semantics on an association list: an existing key
keeps its position and gets the new value; a new key is appended. -/
def dictInsert (d : List (String × Val)) (k : String) (v : Val) :
    List (String × Val) :=
  if d.any (fun p => p.1 == k) then
    d.map (fun p => if p.1 == k then (k, v) else p)
  else
    d ++ [(k, v)]

/-- Key update on a dict value (`output[k] = v`); identity on non-dicts. -/
def Val.setKey : Val → String → Val → Val
  | .vdict fs, k, v => .vdict (dictInsert fs k v)
  | other, _, _ => other

/-!
## Execution graph model

`ExecutionContextManager.plan_graph` is a NetworkX `DiGraph` whose nodes carry
attribute dicts.  We model it as a list of task records plus a directed edge
list of `(source, target)` id pairs.  The fields kept are exactly the ones the
claims exercise: `status`, `cost` and the private `_retry_count`.
-/

/-- One task node of the plan graph. -/
structure Task where
  id : String
  status : Status
  cost : ℚ
  retry : Nat
deriving Repr, DecidableEq

/-- The plan graph: task records plus directed edges (source, target). -/
structure PGraph where
  nodes : List Task
  edges : List (String × String)
deriving Repr, DecidableEq

/-- Status of node `nid`, defaulting to `pending` as in
`node_data.get("status", "pending")`. -/
def statusOf (g : PGraph) (nid : String) : Status :=
  match g.nodes.find? (fun t => t.id == nid) with
  | some t => t.status
  | none => .pending

/-- Direct predecessors of `nid`: sources of edges targeting `nid`
(`plan_graph.predecessors(nid)`). -/
def predecessors (g : PGraph) (nid : String) : List String :=
  (g.edges.filter (fun e => e.2 == nid)).map (fun e => e.1)

/-- Statuses that disqualify a node from the ready frontier
(`context.py` line 123). -/
def notReadyStatuses : List Status :=
  [.completed, .failed, .running, .waiting_input, .stopped, .skipped, .cost_exceeded]

/-- ExecutionContextManager.get_ready_steps (`context.py` lines 112-134):
every non-ROOT node whose status is not in the excluded list and all of
whose predecessors have status completed. -/
def get_ready_steps (g : PGraph) : List String :=
  ((g.nodes.filter (fun t =>
      t.id != "ROOT" &&
      !(notReadyStatuses.contains t.status) &&
      (predecessors g t.id).all (fun p => statusOf g p == .completed))).map
    (fun t => t.id))

/-- ExecutionContextManager.get_inputs (`context.py` lines 378-389): collect
each declared read key present in the globals schema; a missing key is only
logged and omitted. -/
def get_inputs (reads : List String) (globalsSchema : List (String × Val)) :
    List (String × Val) :=
  reads.foldl
    (fun inputs readKey =>
      match globalsSchema.lookup readKey with
      | some v => dictInsert inputs readKey v
      | none => inputs)
    []

/-!
## Write extraction (mark_done, `context.py` lines 308-341)

`mark_done` stores, for each declared `writes` key, a value extracted from the
code-execution result and the agent output.  The execution result and output
are parameters here, exactly as the extraction block reads them; the result
payload of a code execution is a dict (as produced by the executor).
-/

/-- The `result` field of an execution-result dict, defaulting to an empty
dict (`execution_result.get("result", {})`). -/
def resultData (executionResult : Val) : List (String × Val) :=
  match executionResult.get? "result" with
  | some (.vdict rd) => rd
  | _ => []

/-- Truthiness plus `get("status") == "success"` guard of extraction
Strategy 1. -/
def execSuccess (executionResult : Option Val) : Bool :=
  match executionResult with
  | some er => er.truthy && (er.get? "status" == some (.vstr "success"))
  | none => false

/-- Strategy 1 of the extraction (`context.py` lines 315-324): the value of
the write key in a successful code-execution result, or the lone field of a
one-field result when exactly one write key is declared. -/
def strategy1 (executionResult : Option Val) (writes : List String)
    (writeKey : String) : Option Val :=
  if execSuccess executionResult then
    let rd := resultData (executionResult.getD .vnull)
    match rd.lookup writeKey with
    | some v => some v
    | none =>
      if rd.length == 1 && writes.length == 1 then
        rd.head?.map (fun p => p.2)
      else none
  else none

/-- Strategy 2 of the extraction (`context.py` lines 326-336): the key
directly in the (truthy dict) output, else nested one level under its
`output` field, else its `final_answer` field, else the Strategy 3
empty-list fallback (lines 338-341). -/
def strategy2 (output : Val) (writeKey : String) : Val :=
  if output.truthy && output.isDict then
    match output.get? writeKey with
    | some v => v
    | none =>
      match output.get? "output" with
      | some inner =>
        if inner.isDict && inner.hasKey writeKey then
          inner.getD writeKey .vnull
        else if output.hasKey "final_answer" then
          output.getD "final_answer" .vnull
        else .vlist []
      | none =>
        if output.hasKey "final_answer" then
          output.getD "final_answer" .vnull
        else .vlist []
  else .vlist []

/-- Extraction logic of `mark_done` for one `writes` key (`context.py` lines
312-341): Strategy 1, then Strategy 2, then the empty-list fallback. -/
def extractValue (executionResult : Option Val) (writes : List String)
    (output : Val) (writeKey : String) : Val :=
  match strategy1 executionResult writes writeKey with
  | some v => v
  | none => strategy2 output writeKey

/-- The extraction rule written as the specification phrases it: first
applicable rule in the order (1) key in a successful code-execution result
(with the single-field/single-write heuristic), (2) key directly in the
output, (3) key one level under the `output` field, (4) `final_answer` field,
(5) empty value. -/
def extractValueSpec (executionResult : Option Val) (writes : List String)
    (output : Val) (writeKey : String) : Val :=
  let rd := resultData (executionResult.getD .vnull)
  if execSuccess executionResult && (rd.lookup writeKey).isSome then
    (rd.lookup writeKey).getD .vnull
  else if execSuccess executionResult && rd.length == 1 && writes.length == 1 then
    ((rd.head?.map (fun p => p.2)).getD .vnull)
  else if output.truthy && output.isDict && output.hasKey writeKey then
    output.getD writeKey .vnull
  else if output.truthy && output.isDict && (output.getD "output" .vnull).isDict
      && (output.getD "output" .vnull).hasKey writeKey then
    (output.getD "output" .vnull).getD writeKey .vnull
  else if output.truthy && output.isDict && output.hasKey "final_answer" then
    output.getD "final_answer" .vnull
  else .vlist []

/-- Apply the extraction to every declared write key, updating the globals
schema in order (`context.py` lines 311-341). -/
def applyWrites (executionResult : Option Val) (writes : List String)
    (output : Val) (globalsSchema : List (String × Val)) :
    List (String × Val) :=
  writes.foldl
    (fun gs wk => dictInsert gs wk (extractValue executionResult writes output wk))
    globalsSchema

/-!
## mark_done with the clarification suspend/resume path (`context.py` 229-358)

`mark_done` is modelled as a pure function of the node fields, the output,
the (externally supplied) user answer and the stop flag.  It reports the
globals schema right after the interaction phase, the final globals schema,
and the ordered list of statuses assigned to the node.  Timestamps, token
counts and persistence saves are erased.
-/

mutual

/-- Python repr() rendering used where the code stringifies a value. -/
def pyRepr : Val → String
  | .vnull => "None"
  | .vbool true => "True"
  | .vbool false => "False"
  | .vint n => toString n
  | .vstr s => "\x27" ++ s ++ "\x27"
  | .vlist xs => "[" ++ String.intercalate ", " (pyReprList xs) ++ "]"
  | .vdict fs =>
    "\x7b" ++ String.intercalate ", " (pyReprFields fs) ++ "\x7d"

/-- repr() of each element of a list value. -/
def pyReprList : List Val → List String
  | [] => []
  | v :: vs => pyRepr v :: pyReprList vs

/-- repr() of each key/value field of a dict value. -/
def pyReprFields : List (String × Val) → List String
  | [] => []
  | (k, v) :: fs => ("\x27" ++ k ++ "\x27: " ++ pyRepr v) :: pyReprFields fs

end

/-- Python str() of a value. -/
def pyStr : Val → String
  | .vstr s => s
  | v => pyRepr v

/-- ExecutionContextManager._is_clarification_request (`context.py` 225-227):
agent is ClarificationAgent and the output dict has a clarificationMessage
key. -/
def isClarificationRequest (agentType : String) (output : Val) : Bool :=
  agentType == "ClarificationAgent" && output.isDict && output.hasKey "clarificationMessage"

/-- ExecutionContextManager._has_executable_code (`context.py` 144-152). -/
def hasExecutableCode (output : Val) : Bool :=
  match output with
  | .vdict fs =>
    fs.any (fun p => p.1 == "code_variants")
    || fs.any (fun p => p.1.startsWith "CODE_")
    || ["tool_calls", "schedule_tool", "browser_commands", "python_code"].any
         (fun key => fs.any (fun p => p.1 == key))
  | _ => false

/-- ExecutionContextManager._auto_execute_code (`context.py` 194-201): a stub
deferring code execution; always returns a skipped status. -/
def autoExecuteCode : Val :=
  .vdict [("status", .vstr "skipped"), ("error", .vstr "Deferred to Phase 4c")]

/-- ExecutionContextManager._merge_execution_results (`context.py` 203-223). -/
def mergeExecutionResults (originalOutput : Val) (executionResult : Val) : Val :=
  if !originalOutput.isDict then originalOutput
  else
    let e1 := originalOutput.setKey "execution_result" (executionResult.getD "result" .vnull)
    let e2 := e1.setKey "execution_status" (executionResult.getD "status" .vnull)
    let e3 := e2.setKey "execution_error" (executionResult.getD "error" .vnull)
    let e4 := e3.setKey "execution_time" (executionResult.getD "execution_time" .vnull)
    let e5 := e4.setKey "executed_variant" (executionResult.getD "executed_variant" .vnull)
    let e6 := e5.setKey "execution_logs" (executionResult.getD "logs" .vnull)
    if executionResult.get? "status" == some (.vstr "success") then
      (resultData executionResult).foldl
        (fun acc kv => if acc.hasKey kv.1 then acc else acc.setKey kv.1 kv.2)
        e6
    else e6

/-- Result record of the mark_done model: globals right after the user
interaction phase, final globals after write extraction, and the node
statuses assigned in order. -/
structure MarkDoneOut where
  globalsMid : List (String × Val)
  globalsFinal : List (String × Val)
  statusTrace : List Status
deriving Repr

/-- Code-execution phase plus write extraction shared by both mark_done
paths (`context.py` lines 299-341). -/
def markDoneExtract (writes : List String) (output : Val)
    (globalsSchema : List (String × Val)) : List (String × Val) :=
  let executionResult : Option Val :=
    if hasExecutableCode output then some autoExecuteCode else none
  let mergedOutput :=
    match executionResult with
    | some er => mergeExecutionResults output er
    | none => output
  applyWrites executionResult writes mergedOutput globalsSchema

/-- ExecutionContextManager.mark_done (`context.py` lines 249-358) as a pure
function.  `userResponse` is the externally supplied answer the cooperative
wait returns; `stopRequested` the run-scoped stop flag.  The clarification
path sets the node `waiting_input`, waits, records the rich question/answer
context under the declared `writes_to` key (default `user_response`), sets
the node back to `running`, and only then proceeds to completion. -/
def markDoneModel (agentType : String) (writes : List String)
    (globalsSchema : List (String × Val)) (output : Val)
    (userResponse : String) (stopRequested : Bool) : MarkDoneOut :=
  if isClarificationRequest agentType output then
    if stopRequested then
      { globalsMid := globalsSchema
        globalsFinal := globalsSchema
        statusTrace := [.waiting_input, .failed] }
    else
      let writesTo : String :=
        match output.get? "writes_to" with
        | some (.vstr s) => s
        | _ => "user_response"
      let question := pyStr (output.getD "clarificationMessage" (.vstr ""))
      let richContext :=
        "Agent Question: " ++ question ++ "\nUser Answer: " ++ userResponse
      let globalsMid := dictInsert globalsSchema writesTo (.vstr richContext)
      let output1 := output.setKey "user_response" (.vstr userResponse)
      let output2 := output1.setKey "rich_context_saved" (.vstr richContext)
      let output3 := output2.setKey "interaction_completed" (.vbool true)
      { globalsMid := globalsMid
        globalsFinal := markDoneExtract writes output3 globalsMid
        statusTrace := [.waiting_input, .running, .completed] }
  else
    { globalsMid := globalsSchema
      globalsFinal := markDoneExtract writes output globalsSchema
      statusTrace := [.completed] }

/-!
## retry_with_backoff (`loop.py` lines 33-68)

The wrapped operation is modelled as a function from attempt index to an
outcome; an exception carries a flag saying whether its type belongs to the
retryable tuple (asyncio.TimeoutError, ConnectionError, TimeoutError by
default).  The model records the result, the list of sleep delays performed,
and the number of attempts made.
-/

/-- An exception raised by the wrapped operation; `retryable` says whether
its type is in the retryable tuple. -/
structure Exc where
  retryable : Bool
  msg : String
deriving Repr, DecidableEq

/-- Outcome of one invocation of the wrapped operation. -/
inductive CallOutcome where
  | ok (v : String)
  | exc (e : Exc)
deriving Repr, DecidableEq

/-- The RuntimeError raised when the loop captured no exception (only
possible with `max_retries = 0`). -/
def retryRuntimeError : Exc :=
  { retryable := false
    msg := "retry_with_backoff exhausted attempts without capturing an exception" }

/-- Final result of the retry wrapper: a returned value or a raised
exception. -/
inductive RetryResult where
  | ok (v : String)
  | raised (e : Exc)
deriving Repr, DecidableEq

/-- Trace of one run of the retry wrapper: final result, sleep delays in
seconds, and number of attempts made. -/
structure RetryRun where
  result : RetryResult
  delays : List ℚ
  calls : Nat
deriving Repr, DecidableEq

/-- The `for attempt in range(max_retries)` loop of retry_with_backoff:
return on success; on a retryable exception remember it and sleep
`base_delay * 2 ** attempt` when more attempts remain; re-raise any other
exception immediately; after the loop raise the last retryable exception. -/
def retryAux (f : Nat → CallOutcome) (maxRetries : Nat) (baseDelay : ℚ) :
    (remaining : Nat) → (attempt : Nat) → (lastExc : Option Exc) → RetryRun
  | 0, _, lastExc =>
    { result := .raised (lastExc.getD retryRuntimeError), delays := [], calls := 0 }
  | remaining + 1, attempt, _ =>
    match f attempt with
    | .ok v => { result := .ok v, delays := [], calls := 1 }
    | .exc e =>
      if e.retryable then
        let rest := retryAux f maxRetries baseDelay remaining (attempt + 1) (some e)
        if attempt < maxRetries - 1 then
          { result := rest.result
            delays := baseDelay * 2 ^ attempt :: rest.delays
            calls := rest.calls + 1 }
        else
          { result := rest.result, delays := rest.delays, calls := rest.calls + 1 }
      else
        { result := .raised e, delays := [], calls := 1 }

/-- retry_with_backoff with its default parameters
(`max_retries = 3`, `base_delay = 1.0`). -/
def retry_with_backoff (f : Nat → CallOutcome) : RetryRun :=
  retryAux f 3 1 3 0 none

/-!
## Plan merge (`loop.py` lines 316-362, AgentLoop4._merge_plan_into_context)

The merge gives incoming nodes default fields, skips re-adding a node whose
id already exists as `completed`, records incoming edges (skipping malformed
ones and redirecting a `ROOT` source to the bootstrap `Query` task), and
auto-wires every incoming-plan node that was not the target of any recorded
incoming edge to `Query`.  The clarification reads-wiring safety net
(lines 364-394) mutates only `reads` lists, never nodes or edges, and is
outside the merged-edge claims, so it is not modelled.
-/

/-- A node of a planner-produced plan graph; `status` is optional and
defaulted to pending by the merge. -/
structure PlanNode where
  id : String
  status : Option Status
deriving Repr, DecidableEq

/-- An edge of a planner-produced plan graph; `source`/`target` may be
missing (malformed). -/
structure PlanEdge where
  source : Option String
  target : Option String
deriving Repr, DecidableEq

/-- A graph as the merge sees it: named nodes with statuses plus an edge
set.  NetworkX stores at most one directed edge per ordered pair. -/
structure MGraph where
  nodes : List (String × Status)
  edges : List (String × String)
deriving Repr, DecidableEq

/-- Status lookup in a merge graph. -/
def MGraph.statusOf (g : MGraph) (nid : String) : Option Status :=
  g.nodes.lookup nid

/-- networkx add_node with attributes: update the status of an existing
node, append a new one. -/
def MGraph.addNode (g : MGraph) (nid : String) (st : Status) : MGraph :=
  if g.nodes.any (fun p => p.1 == nid) then
    { g with nodes := g.nodes.map (fun p => if p.1 == nid then (nid, st) else p) }
  else
    { g with nodes := g.nodes ++ [(nid, st)] }

/-- networkx add_edge: add missing endpoint nodes (an attribute-less node
reads as pending everywhere the code defaults statuses) and add the edge if
not already present. -/
def MGraph.addEdge (g : MGraph) (src tgt : String) : MGraph :=
  let withSrc :=
    if g.nodes.any (fun p => p.1 == src) then g.nodes
    else g.nodes ++ [(src, Status.pending)]
  let withTgt :=
    if withSrc.any (fun p => p.1 == tgt) then withSrc
    else withSrc ++ [(tgt, Status.pending)]
  { nodes := withTgt
    edges := if (src, tgt) ∈ g.edges then g.edges else g.edges ++ [(src, tgt)] }

/-- Well-formed edges of the incoming plan after the `ROOT -> Query`
redirection: source and target present and non-empty (`if not source or not
target` skips the edge), with a `ROOT` source replaced by `Query`. -/
def redirectedEdges (newEdges : List PlanEdge) : List (String × String) :=
  newEdges.filterMap (fun e =>
    match e.source, e.target with
    | some src, some tgt =>
      if src = "" || tgt = "" then none
      else if src = "ROOT" then some ("Query", tgt)
      else some (src, tgt)
    | _, _ => none)

/-- Node-merge phase (`loop.py` lines 324-343): default the status, skip a
node already present as completed, otherwise add/update it. -/
def mergeNodes (g : MGraph) (newNodes : List PlanNode) : MGraph :=
  newNodes.foldl
    (fun acc node =>
      let st := node.status.getD .pending
      match acc.statusOf node.id with
      | some .completed => acc
      | _ => acc.addNode node.id st)
    g

/-- Edge-merge phase (`loop.py` lines 345-357): add each well-formed
(redirected) edge. -/
def mergeEdges (g : MGraph) (newEdges : List PlanEdge) : MGraph :=
  (redirectedEdges newEdges).foldl (fun acc e => acc.addEdge e.1 e.2) g

/-- Targets of the recorded incoming edges (`nodes_with_incoming_edges`). -/
def planTargets (newEdges : List PlanEdge) : List String :=
  (redirectedEdges newEdges).map (fun e => e.2)

/-- Orphan auto-wiring phase (`loop.py` lines 359-362): every incoming-plan
node that is not a target of a recorded incoming edge gains an edge from
`Query`. -/
def wireOrphans (g : MGraph) (newNodes : List PlanNode)
    (newEdges : List PlanEdge) : MGraph :=
  newNodes.foldl
    (fun acc node =>
      if node.id ∈ planTargets newEdges then acc
      else acc.addEdge "Query" node.id)
    g

/-- AgentLoop4._merge_plan_into_context (`loop.py` lines 316-362): node
phase, then edge phase, then orphan auto-wiring. -/
def mergePlan (g : MGraph) (newNodes : List PlanNode)
    (newEdges : List PlanEdge) : MGraph :=
  wireOrphans (mergeEdges (mergeNodes g newNodes) newEdges) newNodes newEdges

/-- Incoming edges of a node in a merge graph. -/
def MGraph.incoming (g : MGraph) (nid : String) : List (String × String) :=
  g.edges.filter (fun e => e.2 == nid)

/-- The bootstrap context graph built from `bootstrap_graph` in
AgentLoop4.run (`loop.py` lines 112-124): the synthetic completed ROOT, the
Query planner task, and the edge ROOT -> Query. -/
def bootstrapGraph : MGraph :=
  { nodes := [("ROOT", .completed), ("Query", .running)]
    edges := [("ROOT", "Query")] }

/-!
## ReAct step executor (`loop.py` lines 576-751, AgentLoop4._execute_step)

The worker is an environment function from the turn number to the
retry-wrapped invocation result (`{"success", "output"/"error"}`); the tool
router (`ServiceRegistry.route_tool_call` plus the two except branches at
lines 703-719, which build identical retry context) is an environment
function from the turn number to either a stringified tool result or the
stringified error.  `stop_requested` is false throughout (the claims concern
uninterrupted task execution), so the stop branches are erased, and the
`call_self` code-execution hook is the Phase-4c stub, whose skipped status
never merges inputs.  The model returns the step result together with the
list of agent inputs built, one per worker invocation.
-/

/-- A retry-wrapped worker invocation result: either a failure-with-error
(an unsuccessful result or an exception escaping retry_with_backoff) or an
output payload. -/
inductive RunResult where
  | failure (err : String)
  | success (output : Val)
deriving Repr

/-- The parts of the agent input envelope that vary across turns
(build_agent_input, `loop.py` lines 589-614); the constant fields (step id,
reads, writes, resolved inputs, session metadata) are erased.  Falsy
`previous_output`/`iteration_context` payloads are omitted, matching the
conditional dict splats. -/
structure AgentInput where
  instruction : Option String
  previousOutput : Option Val
  iterationContext : Option Val
deriving Repr

/-- build_agent_input: keep only truthy previous-output and
iteration-context payloads. -/
def buildAgentInput (instruction : Option String) (previousOutput : Option Val)
    (iterationContext : Option Val) : AgentInput :=
  { instruction := instruction
    previousOutput :=
      match previousOutput with
      | some v => if v.truthy then some v else none
      | none => none
    iterationContext :=
      match iterationContext with
      | some v => if v.truthy then some v else none
      | none => none }

/-- Result of _execute_step. -/
inductive StepResult where
  | failure (err : String)
  | success (output : Val)
deriving Repr

/-- The warning injected into the instruction on the penultimate turn
(`loop.py` lines 689-694). -/
def finalTurnWarning : String :=
  " \n\nWARNING: This is your FINAL turn. You MUST provide the final \x27output\x27 now. Do not call any more tools. Summarize what you have."

/-- Instruction for the next turn after a successful tool call: the
output\x27s `thought` (defaulting as in `output.get("thought", ...)`), plus
the final-turn warning on the penultimate turn. -/
def toolInstruction (output : Val) (turn maxTurns : Nat) : String :=
  let base :=
    match output.get? "thought" with
    | some (.vstr s) => s
    | _ => "Use the tool result to generate the final output."
  if turn == maxTurns - 1 then base ++ finalTurnWarning else base

/-- The ReAct loop of _execute_step (`loop.py` lines 621-751), recursing on
the remaining turns.  `agent turn` is the worker reply of that turn, `tool
turn` the routed tool-call outcome (`Except` error message or stringified
result).  Returns the step result and the agent inputs consumed. -/
def reactAux (agent : Nat → RunResult) (tool : Nat → Except String String)
    (maxTurns : Nat) :
    (turn : Nat) → (remaining : Nat) → AgentInput → (iterations : List Val) →
    (inputsUsed : List AgentInput) → StepResult × List AgentInput
  | _, 0, _, iterations, inputsUsed =>
    -- Max turns reached: return success with the last produced output
    (.success (iterations.getLast?.getD (.vdict [("error", .vstr "No output produced")])),
     inputsUsed)
  | turn, remaining + 1, input, iterations, inputsUsed =>
    let inputsUsed := inputsUsed ++ [input]
    match agent turn with
    | .failure err => (.failure err, inputsUsed)
    | .success output =>
      if (output.getD "clarificationMessage" .vnull).truthy then
        -- clarification request: routed through mark_done, then success
        (.success output, inputsUsed)
      else
        let iterations := iterations ++ [output]
        if (output.getD "call_tool" .vnull).truthy then
          match tool turn with
          | .ok resultStr =>
            reactAux agent tool maxTurns (turn + 1) remaining
              (buildAgentInput (some (toolInstruction output turn maxTurns))
                (some output)
                (some (.vdict [("tool_result", .vstr resultStr)])))
              iterations inputsUsed
          | .error e =>
            reactAux agent tool maxTurns (turn + 1) remaining
              (buildAgentInput
                (some "The tool execution failed. Try a different approach or tool.")
                (some output)
                (some (.vdict [("tool_result", .vstr ("Error: " ++ e))])))
              iterations inputsUsed
        else if (output.getD "call_self" .vnull).truthy then
          reactAux agent tool maxTurns (turn + 1) remaining
            (buildAgentInput
              (some (match output.get? "next_instruction" with
                     | some (.vstr s) => s
                     | _ => "Continue the task"))
              (some output)
              (some (output.getD "iteration_context" (.vdict []))))
            iterations inputsUsed
        else
          -- final output: return the successful result
          (.success output, inputsUsed)

/-- AgentLoop4._execute_step with its fixed 15-turn limit. -/
def executeStep (agent : Nat → RunResult) (tool : Nat → Except String String) :
    StepResult × List AgentInput :=
  reactAux agent tool 15 1 15 (buildAgentInput none none none) [] []

/-!
## The DAG execution loop (`loop.py` lines 399-574, AgentLoop4._execute_dag)

One `while` iteration ("tick") is a pure function of the loop state and the
environment.  The environment assigns each dispatched task an outcome:
completion with a cost, a failure (a failed result and an escaped exception
retry identically), or a waiting-for-input suspension.  `stop_requested`
stays false (cancellation is out of the claims below).  Globals-schema
writes of completing tasks are modelled separately by `markDoneModel`; here
`mark_done` contributes what the scheduler and cost governor observe: the
completed status and the recorded cost.
-/

/-- Environment outcome for one dispatched task. -/
inductive TaskOutcome where
  | success (cost : ℚ)
  | failure (err : String)
  | waiting
deriving Repr

/-- The loop state: the plan graph, the graph-level status, and whether the
loop has exited. -/
structure LoopState where
  graph : PGraph
  graphStatus : GStatus
  halted : Bool
deriving Repr, DecidableEq

/-- Set the status of the node with the given id. -/
def setStatus (g : PGraph) (nid : String) (st : Status) : PGraph :=
  { g with nodes := g.nodes.map (fun t => if t.id == nid then { t with status := st } else t) }

/-- Mark a completed task: status, recorded cost (mark_done, lines 344-347). -/
def recordCompleted (g : PGraph) (nid : String) (cost : ℚ) : PGraph :=
  { g with nodes := g.nodes.map (fun t =>
      if t.id == nid then { t with status := .completed, cost := cost } else t) }

/-- Increment the private retry counter (`step_data["_retry_count"]`). -/
def bumpRetry (g : PGraph) (nid : String) : PGraph :=
  { g with nodes := g.nodes.map (fun t =>
      if t.id == nid then { t with retry := t.retry + 1 } else t) }

/-- Retry counter of a node (`step_data.get("_retry_count", 0)`). -/
def retryOf (g : PGraph) (nid : String) : Nat :=
  match g.nodes.find? (fun t => t.id == nid) with
  | some t => t.retry
  | none => 0

/-- MAX_STEP_RETRIES (`loop.py` line 471). -/
def MAX_STEP_RETRIES : Nat := 2

/-- Result recording for one dispatched step (`loop.py` lines 473-540):
waiting keeps the task suspended; a success is marked done; a failure is
re-queued to pending while the retry budget lasts and marked failed after
it. -/
def recordResult (env : String → TaskOutcome) (g : PGraph) (nid : String) :
    PGraph :=
  match env nid with
  | .waiting => setStatus g nid .waiting_input
  | .success cost => recordCompleted g nid cost
  | .failure _ =>
    if retryOf g nid < MAX_STEP_RETRIES then bumpRetry (setStatus g nid .pending) nid
    else setStatus g nid .failed

/-- Whether any node is running or waiting for input (`loop.py` 422-425). -/
def anyRunningOrWaiting (g : PGraph) : Bool :=
  g.nodes.any (fun t => t.status == .running || t.status == .waiting_input)

/-- The skip-cascade pass (`loop.py` lines 429-443): walk the node list in
order and, reading the statuses as already updated by this very pass, mark
every pending node with a failed/skipped/cost_exceeded predecessor as
skipped; report whether anything was skipped. -/
def cascadePass (g : PGraph) : PGraph × Bool :=
  (g.nodes.map (fun t => t.id)).foldl
    (fun acc nid =>
      if statusOf acc.1 nid == .pending
         && (predecessors acc.1 nid).any (fun p =>
              [Status.failed, .skipped, .cost_exceeded].contains (statusOf acc.1 p))
      then (setStatus acc.1 nid .skipped, true)
      else acc)
    (g, false)

/-- The completion test of the quiescent branch (`loop.py` lines 446-450):
every non-ROOT node completed, failed, skipped or cost_exceeded. -/
def isComplete (g : PGraph) : Bool :=
  g.nodes.all (fun t =>
    t.id == "ROOT"
    || [Status.completed, .failed, .skipped, .cost_exceeded].contains t.status)

/-- ExecutionContextManager.all_done (`context.py` lines 391-394): every
node in a terminal status. -/
def all_done (g : PGraph) : Bool :=
  g.nodes.all (fun t =>
    [Status.completed, .failed, .skipped, .stopped, .cost_exceeded].contains t.status)

/-- Accumulated cost of completed tasks (`loop.py` lines 543-547). -/
def accumulatedCost (g : PGraph) : ℚ :=
  (g.nodes.map (fun t => if t.status == .completed then t.cost else 0)).sum

/-- The final-status block after the loop (`loop.py` lines 559-569), with
`stop_requested` false. -/
def finalStatus (s : LoopState) : GStatus :=
  if s.graphStatus == .cost_exceeded then .cost_exceeded
  else if s.graph.nodes.any (fun t => t.status == .failed) then .failed
  else if all_done s.graph then .completed
  else .failed

/-- One iteration of the `while not context.all_done()` loop (`loop.py`
lines 409-557) followed, on exit, by the final-status block.  `env` gives
the outcome of each task dispatched in this tick.  The second component is
the accumulated completed-task cost when the tick reached the cost-governor
check (a dispatching tick), `none` otherwise. -/
def tick (env : String → TaskOutcome) (maxCost : ℚ) (s : LoopState) :
    LoopState × Option ℚ :=
  if s.halted then (s, none)
  else if all_done s.graph then
    ({ s with graphStatus := finalStatus s, halted := true }, none)
  else
    let ready := (get_ready_steps s.graph).filter
      (fun nid => statusOf s.graph nid == .pending)
    if ready.isEmpty then
      if anyRunningOrWaiting s.graph then (s, none)   -- sleep and re-loop
      else
        let (g1, stuck) := cascadePass s.graph
        if stuck then ({ s with graph := g1 }, none)  -- re-evaluate frontier
        else if isComplete s.graph then
          ({ s with graphStatus := finalStatus s, halted := true }, none)
        else (s, none)   -- nothing ready, nothing in flight: sleep forever
    else
      let g1 := ready.foldl (fun g nid => setStatus g nid .running) s.graph
      let g2 := ready.foldl (recordResult env) g1
      let acc := accumulatedCost g2
      if maxCost ≤ acc then
        let s2 : LoopState := { graph := g2, graphStatus := .cost_exceeded, halted := true }
        ({ s2 with graphStatus := finalStatus s2 }, some acc)
      else ({ s with graph := g2 }, some acc)

/-- The tick loop driven by a per-tick environment, bounded by fuel (the
real loop can spin forever on a stuck graph).  Returns the final state and
the list of accumulated costs seen by the cost governor, in tick order. -/
def runLoop (env : Nat → String → TaskOutcome) (maxCost : ℚ) :
    (fuel : Nat) → (i : Nat) → LoopState → LoopState × List ℚ
  | 0, _, s => (s, [])
  | fuel + 1, i, s =>
    if s.halted then (s, [])
    else
      match tick (env i) maxCost s with
      | (s1, some acc) =>
        let rest := runLoop env maxCost fuel (i + 1) s1
        (rest.1, acc :: rest.2)
      | (s1, none) => runLoop env maxCost fuel (i + 1) s1

/-- A loop-state step: some tick (arbitrary environment and budget) turns
`a` into `b`. -/
def LoopStep (a b : LoopState) : Prop :=
  ∃ env maxCost, b = (tick env maxCost a).1

/-- Reachability by any number of ticks. -/
def LoopReach : LoopState → LoopState → Prop :=
  Relation.ReflTransGen LoopStep

/-- The scheduler invariant: every node that is running, waiting for input,
completed or failed has all of its direct predecessors completed, the ROOT
node is completed, no node carries the graph-only cost_exceeded status, and
node ids are distinct. -/
def GoodGraph (g : PGraph) : Prop :=
  (∀ t ∈ g.nodes,
     t.status = .running ∨ t.status = .waiting_input ∨
     t.status = .completed ∨ t.status = .failed →
     ∀ p ∈ predecessors g t.id, statusOf g p = .completed)
  ∧ statusOf g "ROOT" = .completed
  ∧ (∀ t ∈ g.nodes, t.status ≠ .cost_exceeded)
  ∧ (g.nodes.map (fun t => t.id)).Nodup

/-- Edge-path reachability in the task graph (transitive successors). -/
def EdgePath (edges : List (String × String)) : String → String → Prop :=
  Relation.TransGen (fun a b => (a, b) ∈ edges)

/-- Whether a node id exists in the graph. -/
def nodeIn (g : PGraph) (nid : String) : Bool :=
  g.nodes.any (fun t => t.id == nid)

/-- Recorded cost of a node, defaulting to 0 (`node.get("cost", 0)`). -/
def costOf (g : PGraph) (nid : String) : ℚ :=
  match g.nodes.find? (fun t => t.id == nid) with
  | some t => t.cost
  | none => 0

/-- Distinct node ids, as in a NetworkX graph. -/
def NodupIds (g : PGraph) : Prop :=
  (g.nodes.map (fun t => t.id)).Nodup

/-- All recorded task costs are nonnegative (monetary spend). -/
def CostNonneg (g : PGraph) : Prop :=
  ∀ t ∈ g.nodes, 0 ≤ t.cost

/-- Statuses a task can only hold after having been scheduled: the
scheduler marks a ready task `running` and the result recording moves it
between these statuses. -/
def Started (st : Status) : Prop :=
  st = .running ∨ st = .waiting_input ∨ st = .completed ∨ st = .failed

/-- A failed or skipped task (the statuses that trigger the skip
cascade together with the never-assigned node-level cost_exceeded). -/
def BadStatus (st : Status) : Prop :=
  st = .failed ∨ st = .skipped

/-- The scheduler invariant at the status level: a node in a started status
has all its direct predecessors completed. -/
def InvS (g : PGraph) : Prop :=
  ∀ n, Started (statusOf g n) → ∀ p ∈ predecessors g n, statusOf g p = .completed

/-- The status-level bundle preserved by every tick: the scheduler
invariant, a completed ROOT, no node-level cost_exceeded status, and
distinct node ids. -/
def GoodS (g : PGraph) : Prop :=
  InvS g ∧ statusOf g "ROOT" = .completed ∧
    (∀ n, statusOf g n ≠ .cost_exceeded) ∧ NodupIds g


/-!
## Helper lemmas: association lists with dict-update semantics
-/

/-!
## Concrete fixtures used by the witness theorems
-/

def costGraphW : PGraph :=
  { nodes := [⟨"ROOT", .completed, 0, 0⟩, ⟨"Query", .completed, 0, 0⟩,
              ⟨"A", .pending, 0, 0⟩, ⟨"B", .pending, 0, 0⟩, ⟨"C", .pending, 0, 0⟩]
    edges := [("ROOT", "Query"), ("Query", "A"), ("A", "B"), ("B", "C")] }

def costS0W : LoopState := ⟨costGraphW, .running, false⟩

def costEnvW : Nat → String → TaskOutcome := fun _ _ => .success (3/10)

def failGraphW : PGraph :=
  { nodes := [⟨"ROOT", .completed, 0, 0⟩, ⟨"Query", .completed, 0, 0⟩,
              ⟨"A", .failed, 0, 2⟩, ⟨"B", .pending, 0, 0⟩, ⟨"C", .pending, 0, 0⟩]
    edges := [("ROOT", "Query"), ("Query", "A"), ("A", "B"), ("B", "C")] }

def failS0W : LoopState := ⟨failGraphW, .running, false⟩

def failEnvTW : String → TaskOutcome := fun _ => .failure "boom"

def failS1W : LoopState := (tick failEnvTW (1/2) failS0W).1

def reactOW : Nat → Val := fun t =>
  .vdict [("call_tool", .vdict [("name", .vstr "search")]), ("turn", .vint (Int.ofNat t))]

def reactAgentW : Nat → RunResult := fun t => .success (reactOW t)

def reactToolW : Nat → Except String String := fun _ => .ok "res"

def c6OutW : Val := .vdict [("call_tool", .vdict [("name", .vstr "search")])]

def c6AgentW : Nat → RunResult := fun _ => .success c6OutW

def c6ToolW : Nat → Except String String := fun _ => .error "boom"

def retryFW : Nat → CallOutcome := fun _ => .exc ⟨true, "timeout"⟩

theorem lookup_cons (k : String) (p : String × Val) (rest : List (String × Val)) :
    ((p :: rest).lookup k) = if k = p.1 then some p.2 else rest.lookup k := by
  cases hb : k == p.1 with
  | true =>
    rw [if_pos (by simpa using hb)]
    simp only [List.lookup, hb]
  | false =>
    rw [if_neg (by simpa using hb)]
    simp only [List.lookup, hb]

theorem lookup_eq_none_of_not_any {d : List (String × Val)} {k : String}
    (h : d.any (fun p => p.1 == k) = false) : d.lookup k = none := by
  induction d with
  | nil => rfl
  | cons p rest ih =>
    simp only [List.any_cons, Bool.or_eq_false_iff, beq_eq_false_iff_ne, ne_eq] at h
    rw [lookup_cons, if_neg (fun hk => h.1 hk.symm)]
    exact ih h.2

theorem lookup_map_overwrite_ne {d : List (String × Val)} {k k' : String} {v : Val}
    (h : k' ≠ k) :
    (d.map (fun p => if p.1 == k then (k, v) else p)).lookup k' = d.lookup k' := by
  induction d with
  | nil => rfl
  | cons p rest ih =>
    simp only [List.map_cons]
    by_cases hp : p.1 = k
    · rw [if_pos (by simpa using hp), lookup_cons, lookup_cons,
        if_neg (by simpa using h), if_neg (by rw [hp]; exact h), ih]
    · rw [if_neg (by simpa using hp), lookup_cons, lookup_cons, ih]

theorem lookup_map_overwrite_eq {d : List (String × Val)} {k : String} {v : Val}
    (h : d.any (fun p => p.1 == k) = true) :
    (d.map (fun p => if p.1 == k then (k, v) else p)).lookup k = some v := by
  induction d with
  | nil => simp at h
  | cons p rest ih =>
    simp only [List.map_cons]
    by_cases hp : p.1 = k
    · rw [if_pos (by simpa using hp), lookup_cons, if_pos rfl]
    · simp only [List.any_cons, Bool.or_eq_true, beq_iff_eq, hp, false_or] at h
      rw [if_neg (by simpa using hp), lookup_cons, if_neg (fun hk => hp hk.symm)]
      exact ih h

theorem lookup_append (d e : List (String × Val)) (k : String) :
    (d ++ e).lookup k =
      match d.lookup k with
      | some v => some v
      | none => e.lookup k := by
  induction d with
  | nil => rfl
  | cons p rest ih =>
    rw [List.cons_append, lookup_cons, lookup_cons]
    by_cases hk : k = p.1
    · rw [if_pos hk, if_pos hk]
    · rw [if_neg hk, if_neg hk, ih]

/-- Lookup after a Python-style dict update. -/
theorem lookup_dictInsert (d : List (String × Val)) (k k' : String) (v : Val) :
    (dictInsert d k v).lookup k' = if k' = k then some v else d.lookup k' := by
  unfold dictInsert
  by_cases ha : d.any (fun p => p.1 == k) = true
  · rw [if_pos ha]
    by_cases hk : k' = k
    · subst hk; rw [if_pos rfl, lookup_map_overwrite_eq ha]
    · rw [if_neg hk, lookup_map_overwrite_ne hk]
  · rw [if_neg ha]
    have hnone := lookup_eq_none_of_not_any (Bool.eq_false_iff.2 ha)
    rw [lookup_append]
    by_cases hk : k' = k
    · subst hk
      rw [if_pos rfl, hnone, lookup_cons, if_pos rfl]
    · rw [if_neg hk]
      cases hd : d.lookup k' with
      | some w => rfl
      | none => rw [lookup_cons, if_neg hk]; rfl

/-!
## Claim C1: the ready frontier
-/

theorem not_notReady_iff_pending (s : Status) :
    (notReadyStatuses.contains s = false) ↔ s = .pending := by
  cases s <;> simp [notReadyStatuses]

/-- Claim C1: `get_ready_steps` returns exactly the non-ROOT tasks whose
status is pending and all of whose predecessors are completed (vacuously so
for a pending task with no predecessors), and no task in any other
status. -/
theorem ready_frontier_characterization (g : PGraph) (n : String) :
    n ∈ get_ready_steps g ↔
      ∃ t ∈ g.nodes, t.id = n ∧ t.status = .pending ∧ n ≠ "ROOT" ∧
        ∀ p ∈ predecessors g n, statusOf g p = .completed := by
  unfold get_ready_steps
  simp only [List.mem_map, List.mem_filter, Bool.and_eq_true, bne_iff_ne, ne_eq,
    Bool.not_eq_true', List.all_eq_true, beq_iff_eq]
  constructor
  · rintro ⟨t, ⟨ht, ⟨hroot, hnot⟩, hpred⟩, rfl⟩
    exact ⟨t, ht, rfl, (not_notReady_iff_pending t.status).1 hnot, hroot,
      fun p hp => hpred p hp⟩
  · rintro ⟨t, ht, rfl, hpend, hroot, hpred⟩
    exact ⟨t, ⟨ht, ⟨hroot, (not_notReady_iff_pending t.status).2 hpend⟩,
      fun p hp => hpred p hp⟩, rfl⟩

/-!
## Claim C10: input resolution from the globals schema
-/

theorem get_inputs_foldl_lookup (globalsSchema : List (String × Val)) (k : String) :
    ∀ (reads : List String) (acc : List (String × Val)),
      (reads.foldl
        (fun inputs readKey =>
          match globalsSchema.lookup readKey with
          | some v => dictInsert inputs readKey v
          | none => inputs) acc).lookup k =
      if k ∈ reads ∧ (globalsSchema.lookup k).isSome then globalsSchema.lookup k
      else acc.lookup k := by
  intro reads
  induction reads with
  | nil => intro acc; simp
  | cons r rest ih =>
    intro acc
    simp only [List.foldl_cons]
    cases hr : globalsSchema.lookup r with
    | some v =>
      rw [ih]
      by_cases hk : k ∈ rest ∧ (globalsSchema.lookup k).isSome
      · rw [if_pos hk, if_pos ⟨List.mem_cons_of_mem _ hk.1, hk.2⟩]
      · rw [if_neg hk, lookup_dictInsert]
        by_cases hkr : k = r
        · subst hkr
          rw [if_pos rfl, if_pos ⟨List.mem_cons_self _ _, by simp [hr]⟩, hr]
        · rw [if_neg hkr, if_neg (by
            rintro ⟨hmem, hsome⟩
            rcases List.mem_cons.1 hmem with h | h
            · exact hkr h
            · exact hk ⟨h, hsome⟩)]
    | none =>
      rw [ih]
      by_cases hk : k ∈ rest ∧ (globalsSchema.lookup k).isSome
      · rw [if_pos hk, if_pos ⟨List.mem_cons_of_mem _ hk.1, hk.2⟩]
      · rw [if_neg hk, if_neg (by
          rintro ⟨hmem, hsome⟩
          rcases List.mem_cons.1 hmem with h | h
          · subst h; simp [hr] at hsome
          · exact hk ⟨h, hsome⟩)]

/-- Claim C10: `get_inputs` binds exactly the declared read keys present in
the globals schema to their current values; a declared key absent from the
schema is silently omitted (no error, no placeholder binding). -/
theorem get_inputs_characterization (reads : List String)
    (globalsSchema : List (String × Val)) (k : String) :
    (get_inputs reads globalsSchema).lookup k =
      if k ∈ reads then globalsSchema.lookup k else none := by
  unfold get_inputs
  rw [get_inputs_foldl_lookup]
  by_cases hm : k ∈ reads
  · by_cases hs : (globalsSchema.lookup k).isSome
    · rw [if_pos ⟨hm, hs⟩, if_pos hm]
    · rw [if_neg (by simp [hs]), if_pos hm]
      simp only [List.lookup_nil]
      exact (Option.not_isSome_iff_eq_none.1 hs).symm
  · rw [if_neg (by simp [hm]), if_neg hm]
    rfl

/-!
## Claim C4: the write-extraction priority order
-/

theorem any_key_eq_lookup_isSome (d : List (String × Val)) (k : String) :
    d.any (fun p => p.1 == k) = (d.lookup k).isSome := by
  induction d with
  | nil => rfl
  | cons p rest ih =>
    rw [List.any_cons, lookup_cons]
    by_cases hk : k = p.1
    · simp [hk]
    · have : (p.1 == k) = false := by simpa using fun h => hk h.symm
      simp [this, hk, ih]

theorem hasKey_eq_isSome (v : Val) (k : String) :
    v.hasKey k = (v.get? k).isSome := by
  cases v <;> simp [Val.hasKey, Val.get?]
  exact any_key_eq_lookup_isSome _ k

/-- Strategy 2 coincides with the ordered if-chain the spec describes. -/
theorem strategy2_eq_chain (output : Val) (writeKey : String) :
    strategy2 output writeKey =
      if output.truthy && output.isDict && output.hasKey writeKey then
        output.getD writeKey .vnull
      else if output.truthy && output.isDict && (output.getD "output" .vnull).isDict
          && (output.getD "output" .vnull).hasKey writeKey then
        (output.getD "output" .vnull).getD writeKey .vnull
      else if output.truthy && output.isDict && output.hasKey "final_answer" then
        output.getD "final_answer" .vnull
      else .vlist [] := by
  unfold strategy2
  by_cases ht : (output.truthy && output.isDict) = true
  · rw [if_pos ht]
    obtain ⟨htr, hd⟩ : output.truthy = true ∧ output.isDict = true := by
      simpa using ht
    simp only [htr, hd, Bool.true_and]
    cases hv : output.get? writeKey with
    | some v =>
      have hk : output.hasKey writeKey = true := by
        rw [hasKey_eq_isSome, hv]; rfl
      simp only [hv, hk, if_true]
      simp [Val.getD, hv]
    | none =>
      have hk : output.hasKey writeKey = false := by
        rw [hasKey_eq_isSome, hv]; rfl
      simp only [hv, hk, Bool.false_eq_true, if_false]
      cases ho : output.get? "output" with
      | some inner =>
        have hgd : output.getD "output" .vnull = inner := by simp [Val.getD, ho]
        simp only [ho, hgd]
      | none =>
        have hgd : output.getD "output" .vnull = .vnull := by simp [Val.getD, ho]
        simp only [ho, hgd]
        rw [if_neg (show ¬((Val.vnull.isDict && Val.vnull.hasKey writeKey) = true) by
          simp [Val.isDict])]
  · have ht' : (output.truthy && output.isDict) = false := Bool.eq_false_iff.2 ht
    rw [if_neg ht]
    rw [if_neg (show ¬((output.truthy && output.isDict && output.hasKey writeKey) = true) by
      simp [ht'])]
    rw [if_neg (show ¬((output.truthy && output.isDict && (output.getD "output" .vnull).isDict
        && (output.getD "output" .vnull).hasKey writeKey) = true) by simp [ht'])]
    rw [if_neg (show ¬((output.truthy && output.isDict && output.hasKey "final_answer") = true) by
      simp [ht'])]

/-- Claim C4: the per-key write extraction of `mark_done` picks its value by
the first applicable rule, in the order (1) key of the same name in a
successful code-execution result, including the single-field/single-write
heuristic that takes the lone field of a one-field result when exactly one
key is declared, (2) key directly in the output dict, (3) key nested one
level under the output's `output` field, (4) the output's `final_answer`
field, (5) an empty value. -/
theorem extract_priority_order (executionResult : Option Val)
    (writes : List String) (output : Val) (writeKey : String) :
    extractValue executionResult writes output writeKey =
      extractValueSpec executionResult writes output writeKey := by
  unfold extractValue extractValueSpec strategy1
  by_cases hs : execSuccess executionResult = true
  · rw [if_pos hs]
    simp only [hs, Bool.true_and]
    cases hl : (resultData (executionResult.getD .vnull)).lookup writeKey with
    | some v => simp [hl]
    | none =>
      simp only [hl, Option.isSome_none, Bool.false_eq_true, if_false]
      by_cases h1 : ((resultData (executionResult.getD .vnull)).length == 1
          && (writes.length == 1)) = true
      · obtain ⟨hrd, hw⟩ : ((resultData (executionResult.getD .vnull)).length == 1) = true
            ∧ (writes.length == 1) = true := by simpa using h1
        rw [if_pos h1]
        simp only [hrd, hw, Bool.and_self, if_true]
        cases hh : (resultData (executionResult.getD .vnull)).head? with
        | some p => simp [hh]
        | none =>
          exfalso
          rw [List.head?_eq_none_iff] at hh
          simp [hh] at hrd
      · rw [if_neg h1]
        have h1' := Bool.eq_false_iff.2 h1
        simp only [Bool.and_eq_false_iff] at h1'
        rw [if_neg (by rcases h1' with h | h <;> simp [h])]
        exact strategy2_eq_chain output writeKey
  · have hs' := Bool.eq_false_iff.2 hs
    rw [if_neg hs]
    simp only [hs', Bool.false_and, Bool.false_eq_true, if_false]
    exact strategy2_eq_chain output writeKey

/-!
## Claim C7: the retry/backoff wrapper
-/

/-- Claim C7: with its default parameters (3 attempts, base delay 1s), the
wrapper (1) propagates a non-retryable exception immediately — at whichever
attempt it occurs — with no further attempt and no further delay, (2) after
exhausting all attempts on retryable failures raises the last retryable
failure, having slept the exponentially doubling delays 1s then 2s, and (3)
returns the value of the first successful attempt. -/
theorem retry_with_backoff_spec (f : Nat → CallOutcome) :
    (∀ e, f 0 = .exc e → e.retryable = false →
      retry_with_backoff f = ⟨.raised e, [], 1⟩)
    ∧ (∀ e0 e1, f 0 = .exc e0 → e0.retryable = true →
        f 1 = .exc e1 → e1.retryable = false →
        retry_with_backoff f = ⟨.raised e1, [1], 2⟩)
    ∧ (∀ e0 e1 e2, f 0 = .exc e0 → e0.retryable = true →
        f 1 = .exc e1 → e1.retryable = true →
        f 2 = .exc e2 → e2.retryable = false →
        retry_with_backoff f = ⟨.raised e2, [1, 2], 3⟩)
    ∧ (∀ e0 e1 e2, f 0 = .exc e0 → e0.retryable = true →
        f 1 = .exc e1 → e1.retryable = true →
        f 2 = .exc e2 → e2.retryable = true →
        retry_with_backoff f = ⟨.raised e2, [1, 2], 3⟩)
    ∧ (∀ v, f 0 = .ok v → retry_with_backoff f = ⟨.ok v, [], 1⟩)
    ∧ (∀ e0 v, f 0 = .exc e0 → e0.retryable = true → f 1 = .ok v →
        retry_with_backoff f = ⟨.ok v, [1], 2⟩)
    ∧ (∀ e0 e1 v, f 0 = .exc e0 → e0.retryable = true →
        f 1 = .exc e1 → e1.retryable = true → f 2 = .ok v →
        retry_with_backoff f = ⟨.ok v, [1, 2], 3⟩) := by
  refine ⟨?_, ?_, ?_, ?_, ?_, ?_, ?_⟩
  · intro e h0 hr
    simp [retry_with_backoff, retryAux, h0, hr]
  · intro e0 e1 h0 hr0 h1 hr1
    simp [retry_with_backoff, retryAux, h0, hr0, h1, hr1]
  · intro e0 e1 e2 h0 hr0 h1 hr1 h2 hr2
    simp [retry_with_backoff, retryAux, h0, hr0, h1, hr1, h2, hr2]
  · intro e0 e1 e2 h0 hr0 h1 hr1 h2 hr2
    simp [retry_with_backoff, retryAux, h0, hr0, h1, hr1, h2, hr2]
  · intro v h0
    simp [retry_with_backoff, retryAux, h0]
  · intro e0 v h0 hr0 h1
    simp [retry_with_backoff, retryAux, h0, hr0, h1]
  · intro e0 e1 v h0 hr0 h1 hr1 h2
    simp [retry_with_backoff, retryAux, h0, hr0, h1, hr1, h2]

/-!
## Claim C8: orphan auto-wiring during plan merge
-/

theorem addEdge_edges (g : MGraph) (a b : String) :
    (g.addEdge a b).edges =
      if (a, b) ∈ g.edges then g.edges else g.edges ++ [(a, b)] := rfl

theorem mem_addEdge_edges (g : MGraph) (a b : String) (e : String × String) :
    e ∈ (g.addEdge a b).edges ↔ e ∈ g.edges ∨ e = (a, b) := by
  rw [addEdge_edges]
  by_cases hm : (a, b) ∈ g.edges
  · rw [if_pos hm]
    constructor
    · exact fun h => Or.inl h
    · rintro (h | rfl)
      · exact h
      · exact hm
  · rw [if_neg hm]
    simp [List.mem_append]

theorem nodup_addEdge_edges (g : MGraph) (a b : String)
    (h : g.edges.Nodup) : (g.addEdge a b).edges.Nodup := by
  rw [addEdge_edges]
  by_cases hm : (a, b) ∈ g.edges
  · rw [if_pos hm]; exact h
  · rw [if_neg hm]
    simpa [List.nodup_append] using ⟨h, hm⟩

theorem mergeNodes_edges (g : MGraph) (newNodes : List PlanNode) :
    (mergeNodes g newNodes).edges = g.edges := by
  unfold mergeNodes
  induction newNodes generalizing g with
  | nil => rfl
  | cons n rest ih =>
    rw [List.foldl_cons]
    rw [ih]
    cases hs : g.statusOf n.id with
    | some st =>
      cases st <;> simp [hs, MGraph.addNode] <;> split_ifs <;> rfl
    | none => simp [hs, MGraph.addNode]; split_ifs <;> rfl

theorem mem_mergeEdges_edges (newEdges : List PlanEdge) (g : MGraph)
    (e : String × String) :
    e ∈ (mergeEdges g newEdges).edges ↔
      e ∈ g.edges ∨ e ∈ redirectedEdges newEdges := by
  unfold mergeEdges
  generalize redirectedEdges newEdges = es
  induction es generalizing g with
  | nil => simp
  | cons p rest ih =>
    rw [List.foldl_cons, ih, mem_addEdge_edges]
    simp [or_assoc]

theorem nodup_mergeEdges_edges (newEdges : List PlanEdge) (g : MGraph)
    (h : g.edges.Nodup) : (mergeEdges g newEdges).edges.Nodup := by
  unfold mergeEdges
  generalize redirectedEdges newEdges = es
  induction es generalizing g with
  | nil => exact h
  | cons p rest ih =>
    rw [List.foldl_cons]
    exact ih _ (nodup_addEdge_edges _ _ _ h)

theorem mem_wireOrphans_edges (newNodes : List PlanNode)
    (newEdges : List PlanEdge) (g : MGraph) (e : String × String) :
    e ∈ (wireOrphans g newNodes newEdges).edges ↔
      e ∈ g.edges ∨
        ∃ n ∈ newNodes, n.id ∉ planTargets newEdges ∧ e = ("Query", n.id) := by
  unfold wireOrphans
  induction newNodes generalizing g with
  | nil => simp
  | cons n rest ih =>
    rw [List.foldl_cons]
    by_cases hn : n.id ∈ planTargets newEdges
    · rw [if_pos hn, ih]
      constructor
      · rintro (h | ⟨m, hm, hmt, rfl⟩)
        · exact Or.inl h
        · exact Or.inr ⟨m, List.mem_cons_of_mem _ hm, hmt, rfl⟩
      · rintro (h | ⟨m, hm, hmt, rfl⟩)
        · exact Or.inl h
        · rcases List.mem_cons.1 hm with rfl | hm
          · exact absurd hn hmt
          · exact Or.inr ⟨m, hm, hmt, rfl⟩
    · rw [if_neg hn, ih]
      rw [mem_addEdge_edges]
      constructor
      · rintro ((h | rfl) | ⟨m, hm, hmt, rfl⟩)
        · exact Or.inl h
        · exact Or.inr ⟨n, List.mem_cons_self _ _, hn, rfl⟩
        · exact Or.inr ⟨m, List.mem_cons_of_mem _ hm, hmt, rfl⟩
      · rintro (h | ⟨m, hm, hmt, rfl⟩)
        · exact Or.inl (Or.inl h)
        · rcases List.mem_cons.1 hm with rfl | hm
          · exact Or.inl (Or.inr rfl)
          · exact Or.inr ⟨m, hm, hmt, rfl⟩

theorem nodup_wireOrphans_edges (newNodes : List PlanNode)
    (newEdges : List PlanEdge) (g : MGraph)
    (h : g.edges.Nodup) : (wireOrphans g newNodes newEdges).edges.Nodup := by
  unfold wireOrphans
  induction newNodes generalizing g with
  | nil => exact h
  | cons n rest ih =>
    rw [List.foldl_cons]
    by_cases hn : n.id ∈ planTargets newEdges
    · rw [if_pos hn]; exact ih _ h
    · rw [if_neg hn]; exact ih _ (nodup_addEdge_edges _ _ _ h)

/-- Membership in the merged graph edge set. -/
theorem mem_mergePlan_edges (g : MGraph) (newNodes : List PlanNode)
    (newEdges : List PlanEdge) (e : String × String) :
    e ∈ (mergePlan g newNodes newEdges).edges ↔
      (e ∈ g.edges ∨ e ∈ redirectedEdges newEdges) ∨
        ∃ n ∈ newNodes, n.id ∉ planTargets newEdges ∧ e = ("Query", n.id) := by
  unfold mergePlan
  rw [mem_wireOrphans_edges, mem_mergeEdges_edges, mergeNodes_edges]

/-- Claim C8 counterexample: merging a single orphan node `A` into the
bootstrap graph gives `A` one incoming edge after the merge (the auto-wired
one), yet `A` gained an edge from the bootstrap task — contradicting the
claim that a merged node with at least one incoming edge after the merge
gains no edge from the bootstrap task. -/
theorem orphan_wiring_claim_fails :
    1 ≤ ((mergePlan bootstrapGraph [⟨"A", none⟩] []).incoming "A").length
    ∧ ("Query", "A") ∈ (mergePlan bootstrapGraph [⟨"A", none⟩] []).edges
    ∧ ("Query", "A") ∉ bootstrapGraph.edges := by
  refine ⟨?_, ?_, ?_⟩ <;> decide

/-- Claim C8 (amended): a node of the incoming plan that is the target of no
well-formed (redirected) incoming-plan edge ends up with the edge from the
bootstrap `Query` task, exactly once when the pre-merge edge set has no
duplicates (the merged edge set stays duplicate-free); a node that is the
target of at least one well-formed
incoming-plan edge gains no edge from the bootstrap task through orphan
wiring — an edge from `Query` to it exists after the merge only if it was
already in the graph or is itself a (redirected) incoming-plan edge. -/
theorem orphan_wiring_amended (g : MGraph) (newNodes : List PlanNode)
    (newEdges : List PlanEdge) (node : PlanNode) (hmem : node ∈ newNodes) :
    (node.id ∉ planTargets newEdges →
      ("Query", node.id) ∈ (mergePlan g newNodes newEdges).edges)
    ∧ (node.id ∈ planTargets newEdges →
        (("Query", node.id) ∈ (mergePlan g newNodes newEdges).edges ↔
          ("Query", node.id) ∈ g.edges ∨
            ("Query", node.id) ∈ redirectedEdges newEdges))
    ∧ (g.edges.Nodup → (mergePlan g newNodes newEdges).edges.Nodup) := by
  refine ⟨?_, ?_, ?_⟩
  · intro hn
    exact (mem_mergePlan_edges g newNodes newEdges _).2
      (Or.inr ⟨node, hmem, hn, rfl⟩)
  · intro hn
    rw [mem_mergePlan_edges]
    constructor
    · rintro ((h | h) | ⟨m, _, hmt, hq⟩)
      · exact Or.inl h
      · exact Or.inr h
      · have hid : node.id = m.id := (Prod.ext_iff.1 hq).2
        exact absurd (hid ▸ hn) hmt
    · rintro (h | h)
      · exact Or.inl (Or.inl h)
      · exact Or.inl (Or.inr h)
  · intro hnd
    unfold mergePlan
    apply nodup_wireOrphans_edges
    apply nodup_mergeEdges_edges
    rw [mergeNodes_edges]
    exact hnd

/-!
## Claim C9: recording a clarification answer
-/

theorem get?_some_isDict {v : Val} {k : String} {w : Val}
    (h : v.get? k = some w) : v.isDict = true := by
  cases v <;> simp [Val.get?, Val.isDict] at h ⊢

/-- Claim C9: when a ClarificationAgent task waiting for input receives a
user answer while the run is not being stopped, the globals schema gains,
under the declared `writes_to` key (default `user_response`), a value
containing both the original clarification question and the user answer,
and the task status goes back to `running` before the completion of the
task proceeds. -/
theorem clarification_resume (agentType : String) (writes : List String)
    (globals : List (String × Val)) (output : Val) (ans msg wt : String)
    (hAgent : agentType = "ClarificationAgent")
    (hMsg : output.get? "clarificationMessage" = some (.vstr msg))
    (hWt : output.get? "writes_to" = some (.vstr wt) ∨
           (output.get? "writes_to" = none ∧ wt = "user_response")) :
    (markDoneModel agentType writes globals output ans false).globalsMid.lookup wt =
      some (.vstr ("Agent Question: " ++ msg ++ "\nUser Answer: " ++ ans))
    ∧ (markDoneModel agentType writes globals output ans false).statusTrace =
      [.waiting_input, .running, .completed] := by
  have hDict : output.isDict = true := get?_some_isDict hMsg
  have hClar : isClarificationRequest agentType output = true := by
    unfold isClarificationRequest
    rw [hasKey_eq_isSome, hMsg]
    simp [hAgent, hDict]
  have hq : pyStr (output.getD "clarificationMessage" (.vstr "")) = msg := by
    simp [Val.getD, hMsg, pyStr]
  have hwt : (match output.get? "writes_to" with
      | some (.vstr s) => s
      | _ => "user_response") = wt := by
    rcases hWt with h | ⟨h, rfl⟩ <;> rw [h]
  unfold markDoneModel
  rw [if_pos hClar, if_neg (by simp)]
  constructor
  · simp [hwt, hq, lookup_dictInsert]
  · rfl

/-!
## Claims C5 and C6: the ReAct loop
-/

/-- If every turn in the remaining window produces a non-final successful
output (no clarification, and a tool call or self call), the loop runs the
window out and returns success with the output of the last turn. -/
theorem react_window (agent : Nat → RunResult) (tool : Nat → Except String String)
    (maxTurns : Nat) (o : Nat → Val) :
    ∀ (r : Nat), 1 ≤ r → ∀ (turn : Nat),
    (∀ t, turn ≤ t → t < turn + r →
      agent t = .success (o t) ∧
      ((o t).getD "clarificationMessage" .vnull).truthy = false ∧
      (((o t).getD "call_tool" .vnull).truthy = true ∨
       ((o t).getD "call_self" .vnull).truthy = true)) →
    ∀ input iterations inputsUsed,
      (reactAux agent tool maxTurns turn r input iterations inputsUsed).1 =
        .success (o (turn + r - 1)) := by
  intro r
  induction r with
  | zero => intro hr; exact absurd hr (by omega)
  | succ r ih =>
    intro _ turn h input iterations inputsUsed
    obtain ⟨ha, hc, hcs⟩ := h turn (Nat.le_refl _) (by omega)
    simp only [reactAux, ha, hc, Bool.false_eq_true, if_false]
    cases r with
    | zero =>
      have hlast : (iterations ++ [o turn]).getLast?.getD
          (.vdict [("error", .vstr "No output produced")]) = o turn := by
        rw [List.getLast?_concat]
        rfl
      have harith0 : turn + (0 + 1) - 1 = turn := by omega
      rcases hcs with htool | hself
      · rw [if_pos htool]
        cases htl : tool turn with
        | ok rs => simp only [reactAux, hlast, harith0]
        | error e => simp only [reactAux, hlast, harith0]
      · by_cases htool : ((o turn).getD "call_tool" .vnull).truthy = true
        · rw [if_pos htool]
          cases htl : tool turn with
          | ok rs => simp only [reactAux, hlast, harith0]
          | error e => simp only [reactAux, hlast, harith0]
        · rw [if_neg htool, if_pos hself]
          simp only [reactAux, hlast, harith0]
    | succ r1 =>
      have harith : (turn + 1) + (r1 + 1) - 1 = turn + (r1 + 1 + 1) - 1 := by omega
      have hshift : ∀ t, turn + 1 ≤ t → t < (turn + 1) + (r1 + 1) →
          agent t = .success (o t) ∧
          ((o t).getD "clarificationMessage" .vnull).truthy = false ∧
          (((o t).getD "call_tool" .vnull).truthy = true ∨
           ((o t).getD "call_self" .vnull).truthy = true) :=
        fun t ht1 ht2 => h t (by omega) (by omega)
      rcases hcs with htool | hself
      · rw [if_pos htool]
        cases htl : tool turn with
        | ok rs =>
          rw [ih (by omega) (turn + 1) hshift, harith]
        | error e =>
          rw [ih (by omega) (turn + 1) hshift, harith]
      · by_cases htool : ((o turn).getD "call_tool" .vnull).truthy = true
        · rw [if_pos htool]
          cases htl : tool turn with
          | ok rs => rw [ih (by omega) (turn + 1) hshift, harith]
          | error e => rw [ih (by omega) (turn + 1) hshift, harith]
        · rw [if_neg htool, if_pos hself]
          rw [ih (by omega) (turn + 1) hshift, harith]

/-- Claim C5: when all 15 turns of the ReAct loop yield a successful worker
reply that is a tool call or a self call (and never a final answer or a
clarification), `_execute_step` returns a success whose output is the last
turn's output verbatim — not a failure and not a distinct incomplete
result. -/
theorem react_turn_limit_soft_success (agent : Nat → RunResult)
    (tool : Nat → Except String String) (o : Nat → Val)
    (h : ∀ t, 1 ≤ t → t ≤ 15 →
      agent t = .success (o t) ∧
      ((o t).getD "clarificationMessage" .vnull).truthy = false ∧
      (((o t).getD "call_tool" .vnull).truthy = true ∨
       ((o t).getD "call_self" .vnull).truthy = true)) :
    (executeStep agent tool).1 = .success (o 15) := by
  unfold executeStep
  have := react_window agent tool 15 o 15 (by omega) 1
    (fun t ht1 ht2 => h t ht1 (by omega))
    (buildAgentInput none none none) [] []
  simpa using this

/-- As long as every worker invocation in the window succeeds, the loop
returns a success, whatever the tool outcomes are. -/
theorem react_success_of_agent_success (agent : Nat → RunResult)
    (tool : Nat → Except String String) (maxTurns : Nat) :
    ∀ (r turn : Nat) (input : AgentInput) (iterations : List Val)
      (inputsUsed : List AgentInput),
      (∀ t, turn ≤ t → t < turn + r → ∃ o, agent t = .success o) →
      ∃ o, (reactAux agent tool maxTurns turn r input iterations inputsUsed).1 =
        .success o := by
  intro r
  induction r with
  | zero =>
    intro turn input iterations inputsUsed _
    exact ⟨_, rfl⟩
  | succ r ih =>
    intro turn input iterations inputsUsed h
    obtain ⟨o, ha⟩ := h turn (Nat.le_refl _) (by omega)
    have hshift : ∀ t, turn + 1 ≤ t → t < (turn + 1) + r → ∃ o, agent t = .success o :=
      fun t ht1 ht2 => h t (by omega) (by omega)
    simp only [reactAux, ha]
    by_cases hc : ((o.getD "clarificationMessage" .vnull)).truthy = true
    · rw [if_pos hc]
      exact ⟨o, rfl⟩
    · rw [if_neg hc]
      by_cases htool : ((o.getD "call_tool" .vnull)).truthy = true
      · rw [if_pos htool]
        cases htl : tool turn with
        | ok rs => exact ih (turn + 1) _ _ _ hshift
        | error e => exact ih (turn + 1) _ _ _ hshift
      · rw [if_neg htool]
        by_cases hself : ((o.getD "call_self" .vnull)).truthy = true
        · rw [if_pos hself]
          exact ih (turn + 1) _ _ _ hshift
        · rw [if_neg hself]
          exact ⟨o, rfl⟩

/-- Claim C6: a tool-routing error (tool not found or tool execution error)
inside the ReAct loop never makes `_execute_step` return a task failure:
(1) whenever every worker invocation succeeds, the step result is a success
regardless of the tool outcomes, bounded only by the turn limit; (2) a turn
whose tool call errors continues the loop with the error text folded into
the next turn's iteration context. -/
theorem tool_error_not_failure (agent : Nat → RunResult)
    (tool : Nat → Except String String) :
    ((∀ t, 1 ≤ t → t ≤ 15 → ∃ o, agent t = .success o) →
      ∃ o, (executeStep agent tool).1 = .success o)
    ∧ (∀ (turn r : Nat) (input : AgentInput) (iterations : List Val)
        (inputsUsed : List AgentInput) (o : Val) (e : String),
        agent turn = .success o →
        (o.getD "clarificationMessage" .vnull).truthy = false →
        (o.getD "call_tool" .vnull).truthy = true →
        tool turn = .error e →
        reactAux agent tool 15 turn (r + 1) input iterations inputsUsed =
          reactAux agent tool 15 (turn + 1) r
            (buildAgentInput
              (some "The tool execution failed. Try a different approach or tool.")
              (some o)
              (some (.vdict [("tool_result", .vstr ("Error: " ++ e))])))
            (iterations ++ [o]) (inputsUsed ++ [input])) := by
  constructor
  · intro h
    unfold executeStep
    exact react_success_of_agent_success agent tool 15 15 1 _ _ _
      (fun t ht1 ht2 => h t ht1 (by omega))
  · intro turn r input iterations inputsUsed o e ha hc htool htl
    simp only [reactAux, ha, hc, Bool.false_eq_true, if_false, htool, if_true, htl]

/-!
## Helper lemmas: graph mutations at the statusOf/costOf level
-/

theorem find?_id_map (l : List Task) (f : Task → Task)
    (hid : ∀ t, (f t).id = t.id) (n : String) :
    (l.map f).find? (fun t => t.id == n) = (l.find? (fun t => t.id == n)).map f := by
  induction l with
  | nil => rfl
  | cons t rest ih =>
    by_cases ht : (t.id == n) = true
    · have h1 : ((f t).id == n) = true := by rw [hid]; exact ht
      simp only [List.map_cons, List.find?, h1, ht, Option.map_some']
    · have h1 : ((f t).id == n) = false := Bool.eq_false_iff.2 (by rw [hid]; exact ht)
      have ht' : (t.id == n) = false := Bool.eq_false_iff.2 ht
      simp only [List.map_cons, List.find?, h1, ht']
      exact ih

theorem find?_eq_of_mem_nodup (l : List Task) (t : Task)
    (hnd : (l.map (fun u => u.id)).Nodup) (ht : t ∈ l) :
    l.find? (fun u => u.id == t.id) = some t := by
  induction l with
  | nil => exact absurd ht (List.not_mem_nil t)
  | cons u rest ih =>
    rw [List.map_cons, List.nodup_cons] at hnd
    rcases List.mem_cons.1 ht with rfl | hmem
    · exact List.find?_cons_of_pos _ (by simp)
    · have hne : ¬(u.id == t.id) = true := by
        intro he
        exact hnd.1 (List.mem_map.2 ⟨t, hmem, (by simpa using he : u.id = t.id).symm⟩)
      rw [@List.find?_cons_of_neg _ (fun w => w.id == t.id) u rest hne]
      exact ih hnd.2 hmem

theorem nodeIn_true_iff (g : PGraph) (n : String) :
    nodeIn g n = true ↔ ∃ t ∈ g.nodes, t.id = n := by
  simp [nodeIn, List.any_eq_true]

theorem statusOf_of_not_nodeIn (g : PGraph) (n : String)
    (h : nodeIn g n = false) : statusOf g n = .pending := by
  unfold statusOf
  rw [List.find?_eq_none.2]
  intro t ht hp
  rw [Bool.eq_false_iff] at h
  exact h ((nodeIn_true_iff g n).2 ⟨t, ht, by simpa using hp⟩)

theorem nodeIn_of_statusOf_ne (g : PGraph) (n : String)
    (h : statusOf g n ≠ .pending) : nodeIn g n = true := by
  cases hi : nodeIn g n with
  | true => rfl
  | false => exact absurd (statusOf_of_not_nodeIn g n hi) h

theorem statusOf_eq_of_mem (g : PGraph) (t : Task) (hnd : NodupIds g)
    (ht : t ∈ g.nodes) : statusOf g t.id = t.status := by
  unfold statusOf
  rw [find?_eq_of_mem_nodup g.nodes t hnd ht]

theorem statusOf_mapNodes (g : PGraph) (f : Task → Task)
    (hid : ∀ t, (f t).id = t.id) (n : String) :
    statusOf { g with nodes := g.nodes.map f } n =
      match g.nodes.find? (fun t => t.id == n) with
      | some t => (f t).status
      | none => .pending := by
  unfold statusOf
  rw [show ({ g with nodes := g.nodes.map f } : PGraph).nodes = g.nodes.map f from rfl,
    find?_id_map _ _ hid]
  cases g.nodes.find? (fun t => t.id == n) with
  | some t => rw [Option.map_some']
  | none => rw [Option.map_none']

theorem costOf_mapNodes (g : PGraph) (f : Task → Task)
    (hid : ∀ t, (f t).id = t.id) (n : String) :
    costOf { g with nodes := g.nodes.map f } n =
      match g.nodes.find? (fun t => t.id == n) with
      | some t => (f t).cost
      | none => 0 := by
  unfold costOf
  rw [show ({ g with nodes := g.nodes.map f } : PGraph).nodes = g.nodes.map f from rfl,
    find?_id_map _ _ hid]
  cases g.nodes.find? (fun t => t.id == n) with
  | some t => rw [Option.map_some']
  | none => rw [Option.map_none']

theorem any_id_map (l : List Task) (f : Task → Task)
    (hid : ∀ t, (f t).id = t.id) (n : String) :
    (l.map f).any (fun t => t.id == n) = l.any (fun t => t.id == n) := by
  induction l with
  | nil => rfl
  | cons t rest ih => simp only [List.map_cons, List.any_cons, hid t, ih]

theorem mapid_map (l : List Task) (f : Task → Task)
    (hid : ∀ t, (f t).id = t.id) :
    (l.map f).map (fun t => t.id) = l.map (fun t => t.id) := by
  induction l with
  | nil => rfl
  | cons t rest ih => simp only [List.map_cons, hid t, ih]

theorem nodeIn_mapNodes (g : PGraph) (f : Task → Task)
    (hid : ∀ t, (f t).id = t.id) (n : String) :
    nodeIn { g with nodes := g.nodes.map f } n = nodeIn g n := by
  unfold nodeIn
  exact any_id_map g.nodes f hid n

theorem nodupIds_mapNodes (g : PGraph) (f : Task → Task)
    (hid : ∀ t, (f t).id = t.id) (h : NodupIds g) :
    NodupIds { g with nodes := g.nodes.map f } := by
  unfold NodupIds at h ⊢
  rw [show ({ g with nodes := g.nodes.map f } : PGraph).nodes = g.nodes.map f from rfl,
    mapid_map g.nodes f hid]
  exact h

theorem setStatus_as_map (g : PGraph) (m : String) (st : Status) :
    setStatus g m st =
      { g with
        nodes := g.nodes.map (fun t => if t.id == m then { t with status := st } else t) } := rfl

theorem recordCompleted_as_map (g : PGraph) (m : String) (c : ℚ) :
    recordCompleted g m c =
      { g with
        nodes := g.nodes.map (fun t => if t.id == m then { t with status := .completed, cost := c } else t) } := rfl

theorem bumpRetry_as_map (g : PGraph) (m : String) :
    bumpRetry g m =
      { g with
        nodes := g.nodes.map (fun t => if t.id == m then { t with retry := t.retry + 1 } else t) } := rfl

theorem statusOf_setStatus (g : PGraph) (m : String) (st : Status) (n : String) :
    statusOf (setStatus g m st) n =
      if n = m ∧ nodeIn g m = true then st else statusOf g n := by
  rw [setStatus_as_map,
    statusOf_mapNodes g (fun t => if t.id == m then { t with status := st } else t)
      (fun t => by by_cases h : t.id = m <;> simp [h]) n]
  cases hf : g.nodes.find? (fun t => t.id == n) with
  | some t =>
    have htid : t.id = n := by simpa using List.find?_some hf
    by_cases hnm : n = m
    · have hin : nodeIn g m = true := (nodeIn_true_iff g m).2
        ⟨t, List.mem_of_find?_eq_some hf, by rw [htid, hnm]⟩
      rw [if_pos ⟨hnm, hin⟩]
      simp [htid, hnm]
    · rw [if_neg (by rintro ⟨h1, _⟩; exact hnm h1)]
      have hs : statusOf g n = t.status := by unfold statusOf; rw [hf]
      rw [hs]
      simp [htid, hnm]
  | none =>
    rw [if_neg (by
      rintro ⟨rfl, hin⟩
      rcases (nodeIn_true_iff g n).1 hin with ⟨t, ht, hid2⟩
      rw [List.find?_eq_none] at hf
      exact hf t ht (by simpa using hid2))]
    have hs : statusOf g n = .pending := by unfold statusOf; rw [hf]
    rw [hs]

theorem statusOf_recordCompleted (g : PGraph) (m : String) (c : ℚ) (n : String) :
    statusOf (recordCompleted g m c) n =
      if n = m ∧ nodeIn g m = true then .completed else statusOf g n := by
  rw [recordCompleted_as_map,
    statusOf_mapNodes g (fun t => if t.id == m then { t with status := .completed, cost := c } else t)
      (fun t => by by_cases h : t.id = m <;> simp [h]) n]
  cases hf : g.nodes.find? (fun t => t.id == n) with
  | some t =>
    have htid : t.id = n := by simpa using List.find?_some hf
    by_cases hnm : n = m
    · have hin : nodeIn g m = true := (nodeIn_true_iff g m).2
        ⟨t, List.mem_of_find?_eq_some hf, by rw [htid, hnm]⟩
      rw [if_pos ⟨hnm, hin⟩]
      simp [htid, hnm]
    · rw [if_neg (by rintro ⟨h1, _⟩; exact hnm h1)]
      have hs : statusOf g n = t.status := by unfold statusOf; rw [hf]
      rw [hs]
      simp [htid, hnm]
  | none =>
    rw [if_neg (by
      rintro ⟨rfl, hin⟩
      rcases (nodeIn_true_iff g n).1 hin with ⟨t, ht, hid2⟩
      rw [List.find?_eq_none] at hf
      exact hf t ht (by simpa using hid2))]
    have hs : statusOf g n = .pending := by unfold statusOf; rw [hf]
    rw [hs]

theorem costOf_setStatus (g : PGraph) (m : String) (st : Status) (n : String) :
    costOf (setStatus g m st) n = costOf g n := by
  rw [setStatus_as_map,
    costOf_mapNodes g (fun t => if t.id == m then { t with status := st } else t)
      (fun t => by by_cases h : t.id = m <;> simp [h]) n]
  cases hf : g.nodes.find? (fun t => t.id == n) with
  | some t =>
    have hs : costOf g n = t.cost := by unfold costOf; rw [hf]
    rw [hs]
    by_cases h : t.id = m <;> simp [h]
  | none =>
    have hs : costOf g n = 0 := by unfold costOf; rw [hf]
    rw [hs]

theorem costOf_recordCompleted (g : PGraph) (m : String) (c : ℚ) (n : String) :
    costOf (recordCompleted g m c) n =
      if n = m ∧ nodeIn g m = true then c else costOf g n := by
  rw [recordCompleted_as_map,
    costOf_mapNodes g (fun t => if t.id == m then { t with status := .completed, cost := c } else t)
      (fun t => by by_cases h : t.id = m <;> simp [h]) n]
  cases hf : g.nodes.find? (fun t => t.id == n) with
  | some t =>
    have htid : t.id = n := by simpa using List.find?_some hf
    by_cases hnm : n = m
    · have hin : nodeIn g m = true := (nodeIn_true_iff g m).2
        ⟨t, List.mem_of_find?_eq_some hf, by rw [htid, hnm]⟩
      rw [if_pos ⟨hnm, hin⟩]
      simp [htid, hnm]
    · rw [if_neg (by rintro ⟨h1, _⟩; exact hnm h1)]
      have hs : costOf g n = t.cost := by unfold costOf; rw [hf]
      rw [hs]
      simp [htid, hnm]
  | none =>
    rw [if_neg (by
      rintro ⟨rfl, hin⟩
      rcases (nodeIn_true_iff g n).1 hin with ⟨t, ht, hid2⟩
      rw [List.find?_eq_none] at hf
      exact hf t ht (by simpa using hid2))]
    have hs : costOf g n = 0 := by unfold costOf; rw [hf]
    rw [hs]

theorem statusOf_bumpRetry (g : PGraph) (m : String) (n : String) :
    statusOf (bumpRetry g m) n = statusOf g n := by
  rw [bumpRetry_as_map,
    statusOf_mapNodes g (fun t => if t.id == m then { t with retry := t.retry + 1 } else t)
      (fun t => by by_cases h : t.id = m <;> simp [h]) n]
  cases hf : g.nodes.find? (fun t => t.id == n) with
  | some t =>
    have hs : statusOf g n = t.status := by unfold statusOf; rw [hf]
    rw [hs]
    by_cases h : t.id = m <;> simp [h]
  | none =>
    have hs : statusOf g n = .pending := by unfold statusOf; rw [hf]
    rw [hs]

theorem costOf_bumpRetry (g : PGraph) (m : String) (n : String) :
    costOf (bumpRetry g m) n = costOf g n := by
  rw [bumpRetry_as_map,
    costOf_mapNodes g (fun t => if t.id == m then { t with retry := t.retry + 1 } else t)
      (fun t => by by_cases h : t.id = m <;> simp [h]) n]
  cases hf : g.nodes.find? (fun t => t.id == n) with
  | some t =>
    have hs : costOf g n = t.cost := by unfold costOf; rw [hf]
    rw [hs]
    by_cases h : t.id = m <;> simp [h]
  | none =>
    have hs : costOf g n = 0 := by unfold costOf; rw [hf]
    rw [hs]

theorem nodeIn_setStatus (g : PGraph) (m : String) (st : Status) (n : String) :
    nodeIn (setStatus g m st) n = nodeIn g n := by
  rw [setStatus_as_map]
  exact nodeIn_mapNodes g (fun t => if t.id == m then { t with status := st } else t)
    (fun t => by by_cases h : t.id = m <;> simp [h]) n

theorem nodeIn_recordCompleted (g : PGraph) (m : String) (c : ℚ) (n : String) :
    nodeIn (recordCompleted g m c) n = nodeIn g n := by
  rw [recordCompleted_as_map]
  exact nodeIn_mapNodes g (fun t => if t.id == m then { t with status := .completed, cost := c } else t)
    (fun t => by by_cases h : t.id = m <;> simp [h]) n

theorem nodeIn_bumpRetry (g : PGraph) (m : String) (n : String) :
    nodeIn (bumpRetry g m) n = nodeIn g n := by
  rw [bumpRetry_as_map]
  exact nodeIn_mapNodes g (fun t => if t.id == m then { t with retry := t.retry + 1 } else t)
    (fun t => by by_cases h : t.id = m <;> simp [h]) n

theorem nodupIds_setStatus (g : PGraph) (m : String) (st : Status)
    (h : NodupIds g) : NodupIds (setStatus g m st) := by
  rw [setStatus_as_map]
  exact nodupIds_mapNodes g (fun t => if t.id == m then { t with status := st } else t)
    (fun t => by by_cases hh : t.id = m <;> simp [hh]) h

theorem nodupIds_recordCompleted (g : PGraph) (m : String) (c : ℚ)
    (h : NodupIds g) : NodupIds (recordCompleted g m c) := by
  rw [recordCompleted_as_map]
  exact nodupIds_mapNodes g (fun t => if t.id == m then { t with status := .completed, cost := c } else t)
    (fun t => by by_cases hh : t.id = m <;> simp [hh]) h

theorem nodupIds_bumpRetry (g : PGraph) (m : String)
    (h : NodupIds g) : NodupIds (bumpRetry g m) := by
  rw [bumpRetry_as_map]
  exact nodupIds_mapNodes g (fun t => if t.id == m then { t with retry := t.retry + 1 } else t)
    (fun t => by by_cases hh : t.id = m <;> simp [hh]) h

theorem edges_setStatus (g : PGraph) (m : String) (st : Status) :
    (setStatus g m st).edges = g.edges := rfl

theorem edges_recordCompleted (g : PGraph) (m : String) (c : ℚ) :
    (recordCompleted g m c).edges = g.edges := rfl

theorem edges_bumpRetry (g : PGraph) (m : String) :
    (bumpRetry g m).edges = g.edges := rfl

theorem predecessors_setStatus (g : PGraph) (m : String) (st : Status) (n : String) :
    predecessors (setStatus g m st) n = predecessors g n := rfl

theorem predecessors_recordCompleted (g : PGraph) (m : String) (c : ℚ) (n : String) :
    predecessors (recordCompleted g m c) n = predecessors g n := rfl

theorem predecessors_bumpRetry (g : PGraph) (m : String) (n : String) :
    predecessors (bumpRetry g m) n = predecessors g n := rfl

/-!
## Helper lemmas: invariant preservation and accumulated cost
-/

theorem invS_update (g g' : PGraph) (m : String) (st : Status)
    (hst : ∀ x, statusOf g' x = if x = m ∧ nodeIn g m = true then st else statusOf g x)
    (hpred : ∀ x, predecessors g' x = predecessors g x)
    (h1 : ∀ p ∈ predecessors g m, statusOf g p = .completed)
    (h2 : statusOf g m ≠ .completed)
    (hinv : InvS g) : InvS g' := by
  intro n hstn p hp
  rw [hpred] at hp
  rw [hst n] at hstn
  by_cases hnm : n = m ∧ nodeIn g m = true
  · rw [if_pos hnm] at hstn
    have hpc : statusOf g p = .completed := h1 p (hnm.1 ▸ hp)
    rw [hst p, if_neg (by rintro ⟨rfl, _⟩; exact h2 hpc)]
    exact hpc
  · rw [if_neg hnm] at hstn
    have hpc : statusOf g p = .completed := hinv n hstn p hp
    rw [hst p, if_neg (by rintro ⟨rfl, _⟩; exact h2 hpc)]
    exact hpc

theorem invS_update_notStarted (g g' : PGraph) (m : String) (st : Status)
    (hst : ∀ x, statusOf g' x = if x = m ∧ nodeIn g m = true then st else statusOf g x)
    (hpred : ∀ x, predecessors g' x = predecessors g x)
    (h1 : ¬ Started st)
    (h2 : statusOf g m ≠ .completed)
    (hinv : InvS g) : InvS g' := by
  intro n hstn p hp
  rw [hpred] at hp
  rw [hst n] at hstn
  by_cases hnm : n = m ∧ nodeIn g m = true
  · rw [if_pos hnm] at hstn
    exact absurd hstn h1
  · rw [if_neg hnm] at hstn
    have hpc : statusOf g p = .completed := hinv n hstn p hp
    rw [hst p, if_neg (by rintro ⟨rfl, _⟩; exact h2 hpc)]
    exact hpc

theorem goodS_update (g g' : PGraph) (m : String) (st : Status)
    (hst : ∀ x, statusOf g' x = if x = m ∧ nodeIn g m = true then st else statusOf g x)
    (hpred : ∀ x, predecessors g' x = predecessors g x)
    (hnd' : NodupIds g')
    (hok : (∀ p ∈ predecessors g m, statusOf g p = .completed) ∨ ¬ Started st)
    (h2 : statusOf g m ≠ .completed)
    (hce : st ≠ .cost_exceeded)
    (hg : GoodS g) : GoodS g' := by
  obtain ⟨hinv, hroot, hnoce, _⟩ := hg
  refine ⟨?_, ?_, ?_, hnd'⟩
  · rcases hok with h1 | h1
    · exact invS_update g g' m st hst hpred h1 h2 hinv
    · exact invS_update_notStarted g g' m st hst hpred h1 h2 hinv
  · rw [hst "ROOT", if_neg (by rintro ⟨he, _⟩; exact h2 (he ▸ hroot))]
    exact hroot
  · intro n
    rw [hst n]
    by_cases hnm : n = m ∧ nodeIn g m = true
    · rw [if_pos hnm]; exact hce
    · rw [if_neg hnm]; exact hnoce n

theorem bad_stable_update (g g' : PGraph) (m : String) (st : Status)
    (hst : ∀ x, statusOf g' x = if x = m ∧ nodeIn g m = true then st else statusOf g x)
    (hbadm : ¬ BadStatus (statusOf g m)) :
    ∀ x, BadStatus (statusOf g x) → statusOf g' x = statusOf g x := by
  intro x hb
  rw [hst x, if_neg (by rintro ⟨rfl, _⟩; exact hbadm hb)]

theorem mem_id_eq_status (g : PGraph) (t : Task) (m : String)
    (hnd : NodupIds g) (ht : t ∈ g.nodes) (hid : t.id = m) :
    t.status = statusOf g m := by
  rw [← hid, statusOf_eq_of_mem g t hnd ht]

theorem accCost_map_le (g : PGraph) (f : Task → Task)
    (h : ∀ t ∈ g.nodes, (t.status = .completed → f t = t) ∧ 0 ≤ (f t).cost) :
    accumulatedCost g ≤
      accumulatedCost { g with nodes := g.nodes.map f } := by
  unfold accumulatedCost
  rw [show ({ g with nodes := g.nodes.map f } : PGraph).nodes = g.nodes.map f from rfl,
    List.map_map]
  apply List.sum_le_sum
  intro t ht
  obtain ⟨h1, h2⟩ := h t ht
  simp only [Function.comp]
  by_cases hc : t.status = .completed
  · rw [h1 hc]
  · rw [if_neg (by simpa using hc)]
    by_cases hfc : (f t).status = .completed
    · rw [if_pos (by simpa using hfc)]; exact h2
    · rw [if_neg (by simpa using hfc)]

theorem accCost_map_eq (g : PGraph) (f : Task → Task)
    (h : ∀ t ∈ g.nodes,
      (if (f t).status == .completed then (f t).cost else 0) =
        (if t.status == .completed then t.cost else 0)) :
    accumulatedCost { g with nodes := g.nodes.map f } = accumulatedCost g := by
  unfold accumulatedCost
  rw [show ({ g with nodes := g.nodes.map f } : PGraph).nodes = g.nodes.map f from rfl,
    List.map_map]
  congr 1
  apply List.map_congr_left
  intro t ht
  simpa [Function.comp] using h t ht

theorem costNonneg_map (g : PGraph) (f : Task → Task)
    (h : ∀ t ∈ g.nodes, 0 ≤ (f t).cost) :
    CostNonneg { g with nodes := g.nodes.map f } := by
  intro t' ht'
  rcases List.mem_map.1 ht' with ⟨t, ht, rfl⟩
  exact h t ht

theorem accCost_setStatus_eq (g : PGraph) (m : String) (st : Status)
    (hnd : NodupIds g) (hm : statusOf g m ≠ .completed) (hst : st ≠ .completed) :
    accumulatedCost (setStatus g m st) = accumulatedCost g := by
  rw [setStatus_as_map]
  apply accCost_map_eq
  intro t ht
  by_cases hid : t.id = m
  · have hts : t.status = statusOf g m := mem_id_eq_status g t m hnd ht hid
    have h1 : t.status ≠ Status.completed := fun h => hm (hts ▸ h)
    simp [hid, hst, h1]
  · simp [hid]

theorem accCost_recordCompleted_le (g : PGraph) (m : String) (c : ℚ)
    (hnd : NodupIds g) (hm : statusOf g m ≠ .completed) (hc : 0 ≤ c)
    (hcn : CostNonneg g) :
    accumulatedCost g ≤ accumulatedCost (recordCompleted g m c) := by
  rw [recordCompleted_as_map]
  apply accCost_map_le
  intro t ht
  constructor
  · intro htc
    have hid : t.id ≠ m := by
      intro hid
      exact hm ((mem_id_eq_status g t m hnd ht hid) ▸ htc)
    rw [if_neg (by simpa using hid)]
  · by_cases hid : t.id = m
    · rw [if_pos (by simpa using hid)]; exact hc
    · rw [if_neg (by simpa using hid)]; exact hcn t ht

theorem accCost_bumpRetry (g : PGraph) (m : String) :
    accumulatedCost (bumpRetry g m) = accumulatedCost g := by
  rw [bumpRetry_as_map]
  apply accCost_map_eq
  intro t ht
  by_cases hid : t.id = m <;> simp [hid]

theorem costNonneg_setStatus (g : PGraph) (m : String) (st : Status)
    (h : CostNonneg g) : CostNonneg (setStatus g m st) := by
  rw [setStatus_as_map]
  apply costNonneg_map
  intro t ht
  by_cases hid : t.id = m
  · rw [if_pos (by simpa using hid)]; exact h t ht
  · rw [if_neg (by simpa using hid)]; exact h t ht

theorem costNonneg_recordCompleted (g : PGraph) (m : String) (c : ℚ)
    (hc : 0 ≤ c) (h : CostNonneg g) : CostNonneg (recordCompleted g m c) := by
  rw [recordCompleted_as_map]
  apply costNonneg_map
  intro t ht
  by_cases hid : t.id = m
  · rw [if_pos (by simpa using hid)]; exact hc
  · rw [if_neg (by simpa using hid)]; exact h t ht

theorem costNonneg_bumpRetry (g : PGraph) (m : String)
    (h : CostNonneg g) : CostNonneg (bumpRetry g m) := by
  rw [bumpRetry_as_map]
  apply costNonneg_map
  intro t ht
  by_cases hid : t.id = m
  · rw [if_pos (by simpa using hid)]; exact h t ht
  · rw [if_neg (by simpa using hid)]; exact h t ht

/-!
## Helper lemmas: the dispatch folds and the skip cascade
-/

theorem goodS_bumpRetry (g : PGraph) (m : String) (h : GoodS g) :
    GoodS (bumpRetry g m) := by
  obtain ⟨hinv, hroot, hnoce, hnd⟩ := h
  refine ⟨?_, ?_, ?_, nodupIds_bumpRetry g m hnd⟩
  · intro n hs p hp
    rw [statusOf_bumpRetry] at hs
    rw [predecessors_bumpRetry] at hp
    rw [statusOf_bumpRetry]
    exact hinv n hs p hp
  · rw [statusOf_bumpRetry]; exact hroot
  · intro n; rw [statusOf_bumpRetry]; exact hnoce n

/-- Properties of the mark-running phase of a dispatching tick
(`loop.py` lines 457-459). -/
theorem markFold_props (l : List String) : ∀ (g g1 : PGraph),
    g1 = l.foldl (fun g nid => setStatus g nid .running) g →
    NodupIds g → l.Nodup →
    (∀ m ∈ l, statusOf g m = .pending ∧ nodeIn g m = true ∧
      (∀ p ∈ predecessors g m, statusOf g p = .completed)) →
    NodupIds g1
    ∧ g1.edges = g.edges
    ∧ (∀ x, x ∉ l → statusOf g1 x = statusOf g x)
    ∧ (∀ m ∈ l, statusOf g1 m = .running)
    ∧ (∀ x, BadStatus (statusOf g x) → statusOf g1 x = statusOf g x)
    ∧ accumulatedCost g1 = accumulatedCost g
    ∧ (CostNonneg g → CostNonneg g1)
    ∧ (GoodS g → GoodS g1) := by
  induction l with
  | nil =>
    intro g g1 hg1 hnd _ _
    subst hg1
    exact ⟨hnd, rfl, fun x _ => rfl, fun m hm => absurd hm (List.not_mem_nil m),
      fun x _ => rfl, rfl, fun h => h, fun h => h⟩
  | cons m rest ih =>
    intro g g1 hg1 hnd hlnd hl
    obtain ⟨hmp, hmin, hmpred⟩ := hl m (List.mem_cons_self m rest)
    rw [List.nodup_cons] at hlnd
    rw [List.foldl_cons] at hg1
    have hstchar : ∀ x, statusOf (setStatus g m .running) x =
        if x = m ∧ nodeIn g m = true then .running else statusOf g x :=
      fun x => statusOf_setStatus g m .running x
    have hnd' : NodupIds (setStatus g m .running) := nodupIds_setStatus g m _ hnd
    have hrest : ∀ m' ∈ rest, statusOf (setStatus g m .running) m' = .pending ∧
        nodeIn (setStatus g m .running) m' = true ∧
        (∀ p ∈ predecessors (setStatus g m .running) m', statusOf (setStatus g m .running) p = .completed) := by
      intro m' hm'
      obtain ⟨h1, h2, h3⟩ := hl m' (List.mem_cons_of_mem m hm')
      have hne : m' ≠ m := fun he => hlnd.1 (he ▸ hm')
      refine ⟨?_, ?_, ?_⟩
      · rw [hstchar, if_neg (by rintro ⟨he, _⟩; exact hne he)]
        exact h1
      · rw [nodeIn_setStatus]; exact h2
      · intro p hp
        rw [predecessors_setStatus] at hp
        have hpc := h3 p hp
        rw [hstchar, if_neg (by
          rintro ⟨rfl, _⟩
          rw [hmp] at hpc
          exact Status.noConfusion hpc)]
        exact hpc
    obtain ⟨c1, c2, c3, c4, c5, c6, c7, c8⟩ :=
      ih (setStatus g m .running) g1 hg1 hnd' hlnd.2 hrest
    refine ⟨c1, by rw [c2, edges_setStatus], ?_, ?_, ?_, ?_, ?_, ?_⟩
    · intro x hx
      rw [c3 x (fun h => hx (List.mem_cons_of_mem m h)),
        hstchar, if_neg (by
          rintro ⟨he, _⟩
          exact hx (by rw [he]; exact List.mem_cons_self m rest))]
    · intro m' hm'
      rcases List.mem_cons.1 hm' with hmeq | hm'
      · rw [hmeq, c3 m hlnd.1, hstchar, if_pos ⟨rfl, hmin⟩]
      · exact c4 m' hm'
    · intro x hb
      have hnotbad : ¬ BadStatus (statusOf g m) := by
        rw [hmp]
        rintro (h | h) <;> exact Status.noConfusion h
      have hkeep : statusOf (setStatus g m .running) x = statusOf g x :=
        bad_stable_update g (setStatus g m .running) m .running hstchar hnotbad x hb
      rw [c5 x (by rw [hkeep]; exact hb), hkeep]
    · rw [c6, accCost_setStatus_eq g m .running hnd
        (by rw [hmp]; exact fun h => Status.noConfusion h)
        (fun h => Status.noConfusion h)]
    · intro hc
      exact c7 (costNonneg_setStatus g m _ hc)
    · intro hg
      refine c8 (goodS_update g (setStatus g m .running) m .running hstchar
        (fun x => predecessors_setStatus g m .running x) hnd'
        (Or.inl hmpred)
        (by rw [hmp]; exact fun h => Status.noConfusion h)
        (fun h => Status.noConfusion h) hg)

/-- Properties of the result-recording phase of a dispatching tick
(`loop.py` lines 473-540). -/
theorem recordFold_props (env : String → TaskOutcome) (l : List String) :
    ∀ (g g2 : PGraph),
    g2 = l.foldl (recordResult env) g →
    NodupIds g → l.Nodup →
    (∀ m ∈ l, statusOf g m = .running) →
    NodupIds g2
    ∧ g2.edges = g.edges
    ∧ (∀ x, x ∉ l → statusOf g2 x = statusOf g x ∧ costOf g2 x = costOf g x)
    ∧ (∀ x, BadStatus (statusOf g x) → statusOf g2 x = statusOf g x)
    ∧ (∀ m ∈ l, ∀ c, env m = .success c → statusOf g2 m = .completed ∧ costOf g2 m = c)
    ∧ ((CostNonneg g ∧ (∀ n c, env n = .success c → 0 ≤ c)) →
        CostNonneg g2 ∧ accumulatedCost g ≤ accumulatedCost g2)
    ∧ (GoodS g → GoodS g2) := by
  induction l with
  | nil =>
    intro g g2 hg2 hnd _ _
    subst hg2
    exact ⟨hnd, rfl, fun x _ => ⟨rfl, rfl⟩, fun x _ => rfl,
      fun m hm => absurd hm (List.not_mem_nil m),
      fun ⟨hc, _⟩ => ⟨hc, le_refl _⟩, fun h => h⟩
  | cons m rest ih =>
    intro g g2 hg2 hnd hlnd hl
    rw [List.nodup_cons] at hlnd
    rw [List.foldl_cons] at hg2
    have hm : statusOf g m = .running := hl m (List.mem_cons_self m rest)
    have hmnotbad : ¬ BadStatus (statusOf g m) := by
      rw [hm]; rintro (h | h) <;> exact Status.noConfusion h
    have hmnotc : statusOf g m ≠ .completed := by
      rw [hm]; exact fun h => Status.noConfusion h
    have hmin : nodeIn g m = true :=
      nodeIn_of_statusOf_ne g m (by rw [hm]; exact fun h => Status.noConfusion h)
    have hfacts :
        NodupIds (recordResult env g m)
        ∧ (recordResult env g m).edges = g.edges
        ∧ (∀ x, x ≠ m → statusOf (recordResult env g m) x = statusOf g x ∧
            costOf (recordResult env g m) x = costOf g x)
        ∧ (∀ x, BadStatus (statusOf g x) →
            statusOf (recordResult env g m) x = statusOf g x)
        ∧ (∀ c, env m = .success c →
            statusOf (recordResult env g m) m = .completed ∧
            costOf (recordResult env g m) m = c)
        ∧ ((CostNonneg g ∧ (∀ n c, env n = .success c → 0 ≤ c)) →
            CostNonneg (recordResult env g m) ∧
            accumulatedCost g ≤ accumulatedCost (recordResult env g m))
        ∧ (GoodS g → GoodS (recordResult env g m)) := by
      cases he : env m with
      | success c =>
        simp only [recordResult, he]
        refine ⟨nodupIds_recordCompleted g m c hnd, rfl, ?_, ?_, ?_, ?_, ?_⟩
        · intro x hx
          rw [statusOf_recordCompleted, if_neg (by rintro ⟨he2, _⟩; exact hx he2),
            costOf_recordCompleted, if_neg (by rintro ⟨he2, _⟩; exact hx he2)]
          exact ⟨rfl, rfl⟩
        · intro x hb
          exact bad_stable_update g _ m .completed
            (fun x => statusOf_recordCompleted g m c x) hmnotbad x hb
        · intro c2 hc2
          injection hc2 with hcc
          subst hcc
          rw [statusOf_recordCompleted, if_pos ⟨rfl, hmin⟩,
            costOf_recordCompleted, if_pos ⟨rfl, hmin⟩]
          exact ⟨rfl, rfl⟩
        · rintro ⟨hcn, henv⟩
          exact ⟨costNonneg_recordCompleted g m c (henv m c he) hcn,
            accCost_recordCompleted_le g m c hnd hmnotc (henv m c he) hcn⟩
        · intro hg
          exact goodS_update g _ m .completed
            (fun x => statusOf_recordCompleted g m c x)
            (fun x => predecessors_recordCompleted g m c x)
            (nodupIds_recordCompleted g m c hnd)
            (Or.inl (fun p hp => hg.1 m (Or.inl hm) p hp))
            hmnotc (fun h => Status.noConfusion h) hg
      | waiting =>
        simp only [recordResult, he]
        refine ⟨nodupIds_setStatus g m _ hnd, rfl, ?_, ?_, ?_, ?_, ?_⟩
        · intro x hx
          rw [statusOf_setStatus, if_neg (by rintro ⟨he2, _⟩; exact hx he2),
            costOf_setStatus]
          exact ⟨rfl, rfl⟩
        · intro x hb
          exact bad_stable_update g _ m .waiting_input
            (fun x => statusOf_setStatus g m .waiting_input x) hmnotbad x hb
        · intro c2 hc2
          exact absurd hc2 (fun h => TaskOutcome.noConfusion h)
        · rintro ⟨hcn, _⟩
          exact ⟨costNonneg_setStatus g m _ hcn,
            le_of_eq (accCost_setStatus_eq g m _ hnd hmnotc
              (fun h => Status.noConfusion h)).symm⟩
        · intro hg
          exact goodS_update g _ m .waiting_input
            (fun x => statusOf_setStatus g m .waiting_input x)
            (fun x => predecessors_setStatus g m .waiting_input x)
            (nodupIds_setStatus g m _ hnd)
            (Or.inl (fun p hp => hg.1 m (Or.inl hm) p hp))
            hmnotc (fun h => Status.noConfusion h) hg
      | failure err =>
        simp only [recordResult, he]
        by_cases hr : retryOf g m < MAX_STEP_RETRIES
        · rw [if_pos hr]
          have hchar : ∀ x, statusOf (bumpRetry (setStatus g m .pending) m) x =
              if x = m ∧ nodeIn g m = true then .pending else statusOf g x := by
            intro x
            rw [statusOf_bumpRetry, statusOf_setStatus]
          have hcostchar : ∀ x, costOf (bumpRetry (setStatus g m .pending) m) x =
              costOf g x := by
            intro x
            rw [costOf_bumpRetry, costOf_setStatus]
          refine ⟨nodupIds_bumpRetry _ m (nodupIds_setStatus g m _ hnd), rfl, ?_, ?_, ?_, ?_, ?_⟩
          · intro x hx
            rw [hchar, if_neg (by rintro ⟨he2, _⟩; exact hx he2), hcostchar]
            exact ⟨rfl, rfl⟩
          · intro x hb
            exact bad_stable_update g _ m .pending hchar hmnotbad x hb
          · intro c2 hc2
            exact absurd hc2 (fun h => TaskOutcome.noConfusion h)
          · rintro ⟨hcn, _⟩
            refine ⟨costNonneg_bumpRetry _ m (costNonneg_setStatus g m _ hcn), ?_⟩
            rw [accCost_bumpRetry, accCost_setStatus_eq g m _ hnd hmnotc
              (fun h => Status.noConfusion h)]
          · intro hg
            exact goodS_bumpRetry _ m (goodS_update g _ m .pending
              (fun x => statusOf_setStatus g m .pending x)
              (fun x => predecessors_setStatus g m .pending x)
              (nodupIds_setStatus g m _ hnd)
              (Or.inr (by rintro (h | h | h | h) <;> exact Status.noConfusion h))
              hmnotc (fun h => Status.noConfusion h) hg)
        · rw [if_neg hr]
          refine ⟨nodupIds_setStatus g m _ hnd, rfl, ?_, ?_, ?_, ?_, ?_⟩
          · intro x hx
            rw [statusOf_setStatus, if_neg (by rintro ⟨he2, _⟩; exact hx he2),
              costOf_setStatus]
            exact ⟨rfl, rfl⟩
          · intro x hb
            exact bad_stable_update g _ m .failed
              (fun x => statusOf_setStatus g m .failed x) hmnotbad x hb
          · intro c2 hc2
            exact absurd hc2 (fun h => TaskOutcome.noConfusion h)
          · rintro ⟨hcn, _⟩
            exact ⟨costNonneg_setStatus g m _ hcn,
              le_of_eq (accCost_setStatus_eq g m _ hnd hmnotc
                (fun h => Status.noConfusion h)).symm⟩
          · intro hg
            exact goodS_update g _ m .failed
              (fun x => statusOf_setStatus g m .failed x)
              (fun x => predecessors_setStatus g m .failed x)
              (nodupIds_setStatus g m _ hnd)
              (Or.inl (fun p hp => hg.1 m (Or.inl hm) p hp))
              hmnotc (fun h => Status.noConfusion h) hg
    obtain ⟨f1, f2, f3, f4, f5, f6, f7⟩ := hfacts
    have hrest : ∀ m' ∈ rest, statusOf (recordResult env g m) m' = .running := by
      intro m' hm'
      rw [(f3 m' (fun he2 => hlnd.1 (he2 ▸ hm'))).1]
      exact hl m' (List.mem_cons_of_mem m hm')
    obtain ⟨c1, c2, c3, c4, c5, c6, c7⟩ :=
      ih (recordResult env g m) g2 hg2 f1 hlnd.2 hrest
    refine ⟨c1, by rw [c2, f2], ?_, ?_, ?_, ?_, ?_⟩
    · intro x hx
      obtain ⟨d1, d2⟩ := c3 x (fun h => hx (List.mem_cons_of_mem m h))
      obtain ⟨e1, e2⟩ := f3 x (fun he2 => hx (by rw [he2]; exact List.mem_cons_self m rest))
      exact ⟨by rw [d1, e1], by rw [d2, e2]⟩
    · intro x hb
      have e1 := f4 x hb
      rw [c4 x (by rw [e1]; exact hb), e1]
    · intro m' hm' c hc
      rcases List.mem_cons.1 hm' with hmeq | hm'
      · subst hmeq
        obtain ⟨e1, e2⟩ := f5 c hc
        obtain ⟨d1, d2⟩ := c3 m' hlnd.1
        exact ⟨by rw [d1, e1], by rw [d2, e2]⟩
      · exact c5 m' hm' c hc
    · rintro ⟨hcn, henv⟩
      obtain ⟨e1, e2⟩ := f6 ⟨hcn, henv⟩
      obtain ⟨d1, d2⟩ := c6 ⟨e1, henv⟩
      exact ⟨d1, le_trans e2 d2⟩
    · intro hg
      exact c7 (f7 hg)

theorem cascadeFold_props (l : List String) : ∀ (acc r : PGraph × Bool),
    r = l.foldl (fun acc nid =>
      if statusOf acc.1 nid == .pending
         && (predecessors acc.1 nid).any (fun p =>
              [Status.failed, .skipped, .cost_exceeded].contains (statusOf acc.1 p))
      then (setStatus acc.1 nid .skipped, true)
      else acc) acc →
    NodupIds acc.1 →
    NodupIds r.1
    ∧ r.1.edges = acc.1.edges
    ∧ (∀ x, BadStatus (statusOf acc.1 x) → statusOf r.1 x = statusOf acc.1 x)
    ∧ (CostNonneg acc.1 → CostNonneg r.1)
    ∧ accumulatedCost r.1 = accumulatedCost acc.1
    ∧ (GoodS acc.1 → GoodS r.1)
    ∧ r.1.nodes.map (fun t => t.id) = acc.1.nodes.map (fun t => t.id) := by
  induction l with
  | nil =>
    intro acc r hr hnd
    subst hr
    exact ⟨hnd, rfl, fun x _ => rfl, fun h => h, rfl, fun h => h, rfl⟩
  | cons nid rest ih =>
    intro acc r hr hnd
    rw [List.foldl_cons] at hr
    by_cases hcond : (statusOf acc.1 nid == .pending
        && (predecessors acc.1 nid).any (fun p =>
            [Status.failed, .skipped, .cost_exceeded].contains (statusOf acc.1 p))) = true
    · rw [if_pos hcond] at hr
      have hpend : statusOf acc.1 nid = .pending := by
        have := (Bool.and_eq_true _ _ ▸ hcond).1
        simpa using this
      have hnotbad : ¬ BadStatus (statusOf acc.1 nid) := by
        rw [hpend]; rintro (h | h) <;> exact Status.noConfusion h
      have hnotc : statusOf acc.1 nid ≠ .completed := by
        rw [hpend]; exact fun h => Status.noConfusion h
      have hchar := fun x => statusOf_setStatus acc.1 nid .skipped x
      have hnd2 : NodupIds (setStatus acc.1 nid .skipped) :=
        nodupIds_setStatus acc.1 nid .skipped hnd
      obtain ⟨c1, c2, c3, c4, c5, c6, c7⟩ :=
        ih (setStatus acc.1 nid .skipped, true) r hr hnd2
      refine ⟨c1, by rw [c2, edges_setStatus], ?_, ?_, ?_, ?_, ?_⟩
      · intro x hb
        have e1 := bad_stable_update acc.1 (setStatus acc.1 nid .skipped)
          nid .skipped hchar hnotbad x hb
        rw [c3 x (by rw [e1]; exact hb), e1]
      · intro hc
        exact c4 (costNonneg_setStatus acc.1 nid .skipped hc)
      · rw [c5, accCost_setStatus_eq acc.1 nid .skipped hnd hnotc
          (fun h => Status.noConfusion h)]
      · intro hg
        exact c6 (goodS_update acc.1 (setStatus acc.1 nid .skipped) nid .skipped
          hchar (fun x => predecessors_setStatus acc.1 nid .skipped x) hnd2
          (Or.inr (by rintro (h | h | h | h) <;> exact Status.noConfusion h))
          hnotc (fun h => Status.noConfusion h) hg)
      · rw [c7]
        rw [setStatus_as_map]
        exact mapid_map acc.1.nodes _ (fun t => by by_cases h : t.id = nid <;> simp [h])
    · rw [if_neg hcond] at hr
      exact ih acc r hr hnd

/-- Properties of one skip-cascade pass (`loop.py` lines 429-443). -/
theorem cascadePass_props (g : PGraph) (hnd : NodupIds g) :
    NodupIds (cascadePass g).1
    ∧ (cascadePass g).1.edges = g.edges
    ∧ (∀ x, BadStatus (statusOf g x) → statusOf (cascadePass g).1 x = statusOf g x)
    ∧ (CostNonneg g → CostNonneg (cascadePass g).1)
    ∧ accumulatedCost (cascadePass g).1 = accumulatedCost g
    ∧ (GoodS g → GoodS (cascadePass g).1)
    ∧ (cascadePass g).1.nodes.map (fun t => t.id) = g.nodes.map (fun t => t.id) := by
  refine cascadeFold_props (g.nodes.map (fun t => t.id)) (g, false) (cascadePass g) ?_ hnd
  unfold cascadePass
  rfl

theorem mem_predecessors (g : PGraph) (p n : String) :
    p ∈ predecessors g n ↔ (p, n) ∈ g.edges := by
  unfold predecessors
  simp only [List.mem_map, List.mem_filter]
  constructor
  · rintro ⟨e, ⟨he, ht⟩, rfl⟩
    have : e = (e.1, n) := by
      rw [Prod.ext_iff]
      exact ⟨rfl, by simpa using ht⟩
    rw [← this]
    exact he
  · intro h
    exact ⟨(p, n), ⟨h, by simp⟩, rfl⟩

/-- The filtered ready list of a tick: distinct ids, all pending nodes of
the graph with completed predecessors. -/
theorem ready_facts (g : PGraph) (hnd : NodupIds g) :
    ((get_ready_steps g).filter (fun nid => statusOf g nid == .pending)).Nodup
    ∧ (∀ m ∈ (get_ready_steps g).filter (fun nid => statusOf g nid == .pending),
        statusOf g m = .pending ∧ nodeIn g m = true ∧
        (∀ p ∈ predecessors g m, statusOf g p = .completed)) := by
  constructor
  · apply List.Nodup.filter
    unfold get_ready_steps
    have hsub : ((g.nodes.filter (fun t =>
        t.id != "ROOT" &&
        !(notReadyStatuses.contains t.status) &&
        (predecessors g t.id).all (fun p => statusOf g p == .completed))).map
          (fun t => t.id)).Sublist (g.nodes.map (fun t => t.id)) :=
      (List.filter_sublist g.nodes).map _
    exact List.Nodup.sublist hsub hnd
  · intro m hm
    rw [List.mem_filter] at hm
    obtain ⟨hmem, hpend⟩ := hm
    rcases (ready_frontier_characterization g m).1 hmem with ⟨t, ht, htid, _, _, hpred⟩
    exact ⟨by simpa using hpend, (nodeIn_true_iff g m).2 ⟨t, ht, htid⟩, hpred⟩

/-- Exhaustive behavioural case analysis of one tick. -/
theorem tick_cases (env : String → TaskOutcome) (maxCost : ℚ) (s : LoopState) :
    (s.halted = true ∧ tick env maxCost s = (s, none))
    ∨ (s.halted = false ∧ all_done s.graph = true ∧
        tick env maxCost s = ({ s with graphStatus := finalStatus s, halted := true }, none))
    ∨ (s.halted = false ∧ all_done s.graph = false ∧
        (∃ ready g2,
          ready = (get_ready_steps s.graph).filter (fun n => statusOf s.graph n == .pending) ∧
          ready.isEmpty = false ∧
          g2 = ready.foldl (recordResult env)
            (ready.foldl (fun g nid => setStatus g nid .running) s.graph) ∧
          ((maxCost ≤ accumulatedCost g2 ∧
            tick env maxCost s =
              (⟨g2, .cost_exceeded, true⟩, some (accumulatedCost g2)))
           ∨ (¬ maxCost ≤ accumulatedCost g2 ∧
            tick env maxCost s = ({ s with graph := g2 }, some (accumulatedCost g2))))))
    ∨ (s.halted = false ∧ all_done s.graph = false ∧
        ((get_ready_steps s.graph).filter
          (fun n => statusOf s.graph n == .pending)).isEmpty = true ∧
        (tick env maxCost s = (s, none)
         ∨ tick env maxCost s = ({ s with graph := (cascadePass s.graph).1 }, none)
         ∨ tick env maxCost s = ({ s with graphStatus := finalStatus s, halted := true }, none))) := by
  by_cases h1 : s.halted = true
  · exact Or.inl ⟨h1, by simp [tick, h1]⟩
  · have h1f : s.halted = false := Bool.eq_false_iff.2 h1
    by_cases h2 : all_done s.graph = true
    · exact Or.inr (Or.inl ⟨h1f, h2, by simp [tick, h1f, h2]⟩)
    · have h2f : all_done s.graph = false := Bool.eq_false_iff.2 h2
      by_cases h3 : ((get_ready_steps s.graph).filter
          (fun n => statusOf s.graph n == .pending)).isEmpty = true
      · refine Or.inr (Or.inr (Or.inr ⟨h1f, h2f, h3, ?_⟩))
        by_cases h4 : anyRunningOrWaiting s.graph = true
        · exact Or.inl (by simp [tick, h1f, h2f, h3, h4])
        · have h4f : anyRunningOrWaiting s.graph = false := Bool.eq_false_iff.2 h4
          rcases hc : cascadePass s.graph with ⟨g1, stuck⟩
          cases stuck with
          | true =>
            refine Or.inr (Or.inl ?_)
            simp [tick, h1f, h2f, h3, h4f, hc]
          | false =>
            by_cases h5 : isComplete s.graph = true
            · exact Or.inr (Or.inr (by simp [tick, h1f, h2f, h3, h4f, hc, h5]))
            · have h5f : isComplete s.graph = false := Bool.eq_false_iff.2 h5
              exact Or.inl (by simp [tick, h1f, h2f, h3, h4f, hc, h5f])
      · have h3f : ((get_ready_steps s.graph).filter
            (fun n => statusOf s.graph n == .pending)).isEmpty = false :=
          Bool.eq_false_iff.2 h3
        refine Or.inr (Or.inr (Or.inl ⟨h1f, h2f,
          (get_ready_steps s.graph).filter (fun n => statusOf s.graph n == .pending), _,
          rfl, h3f, rfl, ?_⟩))
        by_cases h6 : maxCost ≤ accumulatedCost
            (((get_ready_steps s.graph).filter
              (fun n => statusOf s.graph n == .pending)).foldl (recordResult env)
              ((((get_ready_steps s.graph).filter
                (fun n => statusOf s.graph n == .pending))).foldl
                (fun g nid => setStatus g nid .running) s.graph))
        · refine Or.inl ⟨h6, ?_⟩
          simp only [tick, h1f, h2f, h3f, Bool.false_eq_true, if_false, if_pos h6]
          simp [finalStatus]
        · refine Or.inr ⟨h6, ?_⟩
          simp only [tick, h1f, h2f, h3f, Bool.false_eq_true, if_false, if_neg h6]

theorem ids_markFold (l : List String) : ∀ (g : PGraph),
    ((l.foldl (fun g nid => setStatus g nid .running) g)).nodes.map (fun t => t.id) =
      g.nodes.map (fun t => t.id) := by
  induction l with
  | nil => intro g; rfl
  | cons m rest ih =>
    intro g
    rw [List.foldl_cons, ih, setStatus_as_map]
    exact mapid_map g.nodes _ (fun t => by by_cases h : t.id = m <;> simp [h])

theorem ids_recordResult (env : String → TaskOutcome) (g : PGraph) (m : String) :
    (recordResult env g m).nodes.map (fun t => t.id) = g.nodes.map (fun t => t.id) := by
  cases he : env m with
  | success c =>
    simp only [recordResult, he, recordCompleted_as_map]
    exact mapid_map g.nodes _ (fun t => by by_cases h : t.id = m <;> simp [h])
  | waiting =>
    simp only [recordResult, he, setStatus_as_map]
    exact mapid_map g.nodes _ (fun t => by by_cases h : t.id = m <;> simp [h])
  | failure err =>
    simp only [recordResult, he]
    by_cases hr : retryOf g m < MAX_STEP_RETRIES
    · rw [if_pos hr, bumpRetry_as_map]
      rw [mapid_map _ _ (fun t => by by_cases h : t.id = m <;> simp [h])]
      rw [setStatus_as_map]
      exact mapid_map g.nodes _ (fun t => by by_cases h : t.id = m <;> simp [h])
    · rw [if_neg hr, setStatus_as_map]
      exact mapid_map g.nodes _ (fun t => by by_cases h : t.id = m <;> simp [h])

theorem ids_recordFold (env : String → TaskOutcome) (l : List String) : ∀ (g : PGraph),
    ((l.foldl (recordResult env) g)).nodes.map (fun t => t.id) =
      g.nodes.map (fun t => t.id) := by
  induction l with
  | nil => intro g; rfl
  | cons m rest ih =>
    intro g
    rw [List.foldl_cons, ih, ids_recordResult]

theorem finalStatus_ne_ce (s : LoopState) (h : s.graphStatus ≠ .cost_exceeded) :
    finalStatus s ≠ .cost_exceeded := by
  unfold finalStatus
  rw [if_neg (by simpa using h)]
  by_cases h2 : s.graph.nodes.any (fun t => t.status == .failed) = true
  · rw [if_pos h2]; exact fun hh => GStatus.noConfusion hh
  · rw [if_neg h2]
    by_cases h3 : (all_done s.graph) = true
    · rw [if_pos h3]; exact fun hh => GStatus.noConfusion hh
    · rw [if_neg h3]; exact fun hh => GStatus.noConfusion hh

/-- One tick preserves distinct ids, the edge set, failed/skipped statuses,
the scheduler invariant bundle, cost nonnegativity and cost monotonicity;
an emitted cost-governor reading equals the accumulated completed-task cost
of the post-tick graph. -/
theorem tick_props (env : String → TaskOutcome) (maxCost : ℚ) (s : LoopState)
    (hnd : NodupIds s.graph) :
    NodupIds (tick env maxCost s).1.graph
    ∧ (tick env maxCost s).1.graph.edges = s.graph.edges
    ∧ (∀ x, BadStatus (statusOf s.graph x) →
        statusOf (tick env maxCost s).1.graph x = statusOf s.graph x)
    ∧ (GoodS s.graph → GoodS (tick env maxCost s).1.graph)
    ∧ ((CostNonneg s.graph ∧ (∀ n c, env n = .success c → 0 ≤ c)) →
        CostNonneg (tick env maxCost s).1.graph ∧
        accumulatedCost s.graph ≤ accumulatedCost (tick env maxCost s).1.graph)
    ∧ (∀ a, (tick env maxCost s).2 = some a →
        a = accumulatedCost (tick env maxCost s).1.graph)
    ∧ (tick env maxCost s).1.graph.nodes.map (fun t => t.id) =
        s.graph.nodes.map (fun t => t.id) := by
  rcases tick_cases env maxCost s with
    ⟨_, heq⟩ | ⟨_, _, heq⟩ |
    ⟨_, _, ready, g2, hready, hne, hg2, hbranch⟩ | ⟨_, _, _, hq⟩
  · rw [heq]
    exact ⟨hnd, rfl, fun x _ => rfl, fun h => h, fun h => ⟨h.1, le_refl _⟩,
      fun a ha => Option.noConfusion ha, rfl⟩
  · rw [heq]
    exact ⟨hnd, rfl, fun x _ => rfl, fun h => h, fun h => ⟨h.1, le_refl _⟩,
      fun a ha => Option.noConfusion ha, rfl⟩
  · obtain ⟨hrnd, hrfacts⟩ := ready_facts s.graph hnd
    rw [← hready] at hrnd hrfacts
    obtain ⟨m1, m2, m3, m4, m5, m6, m7, m8⟩ :=
      markFold_props ready s.graph
        (ready.foldl (fun g nid => setStatus g nid .running) s.graph) rfl hnd hrnd
        (fun m hm => hrfacts m hm)
    obtain ⟨r1, r2, r3, r4, r5, r6, r7⟩ :=
      recordFold_props env ready
        (ready.foldl (fun g nid => setStatus g nid .running) s.graph) g2 hg2 m1 hrnd m4
    have hedges : g2.edges = s.graph.edges := by rw [r2, m2]
    have hids : g2.nodes.map (fun t => t.id) = s.graph.nodes.map (fun t => t.id) := by
      rw [hg2, ids_recordFold, ids_markFold]
    have hstab : ∀ x, BadStatus (statusOf s.graph x) →
        statusOf g2 x = statusOf s.graph x := by
      intro x hb
      have e1 := m5 x hb
      rw [r4 x (by rw [e1]; exact hb), e1]
    have hgood : GoodS s.graph → GoodS g2 := fun hg => r7 (m8 hg)
    have hcost : (CostNonneg s.graph ∧ (∀ n c, env n = .success c → 0 ≤ c)) →
        CostNonneg g2 ∧ accumulatedCost s.graph ≤ accumulatedCost g2 := by
      rintro ⟨hcn, henv⟩
      obtain ⟨d1, d2⟩ := r6 ⟨m7 hcn, henv⟩
      exact ⟨d1, by rw [← m6]; exact d2⟩
    rcases hbranch with ⟨hle, heq⟩ | ⟨hle, heq⟩
    · rw [heq]
      exact ⟨r1, hedges, hstab, hgood, hcost, fun a ha => by injection ha with h2; rw [← h2], hids⟩
    · rw [heq]
      exact ⟨r1, hedges, hstab, hgood, hcost, fun a ha => by injection ha with h2; rw [← h2], hids⟩
  · rcases hq with heq | heq | heq
    · rw [heq]
      exact ⟨hnd, rfl, fun x _ => rfl, fun h => h, fun h => ⟨h.1, le_refl _⟩,
        fun a ha => Option.noConfusion ha, rfl⟩
    · obtain ⟨p1, p2, p3, p4, p5, p6, p7⟩ := cascadePass_props s.graph hnd
      rw [heq]
      exact ⟨p1, p2, p3, p6, fun h => ⟨p4 h.1, le_of_eq p5.symm⟩,
        fun a ha => Option.noConfusion ha, p7⟩
    · rw [heq]
      exact ⟨hnd, rfl, fun x _ => rfl, fun h => h, fun h => ⟨h.1, le_refl _⟩,
        fun a ha => Option.noConfusion ha, rfl⟩

/-- The graph status turns cost_exceeded exactly when a tick emits an
accumulated cost at or above the budget. -/
theorem tick_status (env : String → TaskOutcome) (maxCost : ℚ) (s : LoopState)
    (h : s.graphStatus ≠ .cost_exceeded) :
    ((tick env maxCost s).2 = none →
      (tick env maxCost s).1.graphStatus ≠ .cost_exceeded)
    ∧ (∀ a, (tick env maxCost s).2 = some a →
        ((maxCost ≤ a →
          (tick env maxCost s).1.graphStatus = .cost_exceeded ∧
          (tick env maxCost s).1.halted = true)
         ∧ (¬ maxCost ≤ a → (tick env maxCost s).1.graphStatus = s.graphStatus))) := by
  rcases tick_cases env maxCost s with
    ⟨_, heq⟩ | ⟨_, _, heq⟩ |
    ⟨_, _, ready, g2, hready, hne, hg2, hbranch⟩ | ⟨_, _, _, hq⟩
  · rw [heq]
    exact ⟨fun _ => h, fun a ha => Option.noConfusion ha⟩
  · rw [heq]
    exact ⟨fun _ => finalStatus_ne_ce s h, fun a ha => Option.noConfusion ha⟩
  · rcases hbranch with ⟨hle, heq⟩ | ⟨hle, heq⟩
    · rw [heq]
      refine ⟨fun hn => Option.noConfusion hn, fun a ha => ?_⟩
      injection ha with h2
      subst h2
      exact ⟨fun _ => ⟨rfl, rfl⟩, fun hlt => absurd hle hlt⟩
    · rw [heq]
      refine ⟨fun hn => Option.noConfusion hn, fun a ha => ?_⟩
      injection ha with h2
      subst h2
      exact ⟨fun hle2 => absurd hle2 hle, fun _ => rfl⟩
  · rcases hq with heq | heq | heq
    · rw [heq]
      exact ⟨fun _ => h, fun a ha => Option.noConfusion ha⟩
    · rw [heq]
      exact ⟨fun _ => h, fun a ha => Option.noConfusion ha⟩
    · rw [heq]
      exact ⟨fun _ => finalStatus_ne_ce s h, fun a ha => Option.noConfusion ha⟩

theorem runLoop_halted (env : Nat → String → TaskOutcome) (maxCost : ℚ)
    (fuel i : Nat) (s : LoopState) (h : s.halted = true) :
    runLoop env maxCost fuel i s = (s, []) := by
  cases fuel with
  | zero => rfl
  | succ f => simp [runLoop, h]

/-- The governor readings before the triggering one stay under the budget,
and the run ends in cost_exceeded exactly when a reading reaches it. -/
theorem runLoop_trigger (env : Nat → String → TaskOutcome) (maxCost : ℚ) :
    ∀ (fuel i : Nat) (s : LoopState), s.graphStatus ≠ .cost_exceeded →
    ((runLoop env maxCost fuel i s).1.graphStatus = .cost_exceeded →
      ∃ l a, (runLoop env maxCost fuel i s).2 = l ++ [a] ∧ maxCost ≤ a ∧
        ∀ x ∈ l, x < maxCost)
    ∧ ((runLoop env maxCost fuel i s).1.graphStatus ≠ .cost_exceeded →
      ∀ x ∈ (runLoop env maxCost fuel i s).2, x < maxCost) := by
  intro fuel
  induction fuel with
  | zero =>
    intro i s h
    exact ⟨fun hc => absurd hc h, fun _ x hx => absurd hx (List.not_mem_nil x)⟩
  | succ f ih =>
    intro i s h
    by_cases hh : s.halted = true
    · rw [runLoop_halted env maxCost (f + 1) i s hh]
      exact ⟨fun hc => absurd hc h, fun _ x hx => absurd hx (List.not_mem_nil x)⟩
    · have hh2 : s.halted = false := Bool.eq_false_iff.2 hh
      rcases ht : tick (env i) maxCost s with ⟨s1, acc⟩
      obtain ⟨hst1, hst2⟩ := tick_status (env i) maxCost s h
      rw [ht] at hst1 hst2
      cases acc with
      | none =>
        have hs1 : s1.graphStatus ≠ .cost_exceeded := hst1 rfl
        simp only [runLoop, hh2, Bool.false_eq_true, if_false, ht]
        exact ih (i + 1) s1 hs1
      | some a =>
        obtain ⟨htrig, hkeep⟩ := hst2 a rfl
        by_cases hle : maxCost ≤ a
        · obtain ⟨hce, hhalt⟩ := htrig hle
          simp only [runLoop, hh2, Bool.false_eq_true, if_false, ht]
          rw [runLoop_halted env maxCost f (i + 1) s1 hhalt]
          exact ⟨fun _ => ⟨[], a, rfl, hle, fun x hx => absurd hx (List.not_mem_nil x)⟩,
            fun hnc => absurd hce hnc⟩
        · have hsts : s1.graphStatus = s.graphStatus := hkeep hle
          have hs1 : s1.graphStatus ≠ .cost_exceeded := by rw [hsts]; exact h
          obtain ⟨ih1, ih2⟩ := ih (i + 1) s1 hs1
          simp only [runLoop, hh2, Bool.false_eq_true, if_false, ht]
          constructor
          · intro hc
            obtain ⟨l, a2, hl, ha2, hlt⟩ := ih1 hc
            refine ⟨a :: l, a2, by rw [hl]; rfl, ha2, ?_⟩
            intro x hx
            rcases List.mem_cons.1 hx with rfl | hx
            · exact lt_of_not_le hle
            · exact hlt x hx
          · intro hnc x hx
            rcases List.mem_cons.1 hx with rfl | hx
            · exact lt_of_not_le hle
            · exact ih2 hnc x hx

/-- The governor readings never decrease across ticks, and the first one is
at least the accumulated cost of the starting graph. -/
theorem runLoop_chain (env : Nat → String → TaskOutcome) (maxCost : ℚ)
    (henv : ∀ i n c, env i n = .success c → 0 ≤ c) :
    ∀ (fuel i : Nat) (s : LoopState), NodupIds s.graph → CostNonneg s.graph →
    List.Chain' (· ≤ ·) (runLoop env maxCost fuel i s).2
    ∧ (∀ a ∈ (runLoop env maxCost fuel i s).2.head?,
        accumulatedCost s.graph ≤ a) := by
  intro fuel
  induction fuel with
  | zero =>
    intro i s _ _
    refine ⟨List.chain'_nil, ?_⟩
    intro a ha
    exact absurd ha (by simp [runLoop])
  | succ f ih =>
    intro i s hnd hcn
    by_cases hh : s.halted = true
    · rw [runLoop_halted env maxCost (f + 1) i s hh]
      exact ⟨List.chain'_nil, by simp⟩
    · have hh2 : s.halted = false := Bool.eq_false_iff.2 hh
      rcases ht : tick (env i) maxCost s with ⟨s1, acc⟩
      obtain ⟨p1, _, _, _, p5, p6, _⟩ := tick_props (env i) maxCost s hnd
      rw [ht] at p1 p5 p6
      obtain ⟨pcn, pacc⟩ := p5 ⟨hcn, henv i⟩
      obtain ⟨ihc, ihh⟩ := ih (i + 1) s1 p1 pcn
      cases acc with
      | none =>
        simp only [runLoop, hh2, Bool.false_eq_true, if_false, ht]
        exact ⟨ihc, fun a ha => le_trans pacc (ihh a ha)⟩
      | some a =>
        have ha : a = accumulatedCost s1.graph := p6 a rfl
        simp only [runLoop, hh2, Bool.false_eq_true, if_false, ht]
        constructor
        · rw [List.chain'_cons']
          exact ⟨fun b hb => by rw [ha]; exact ihh b hb, ihc⟩
        · intro b hb
          have hab : a = b := by simpa using hb
          rw [← hab, ha]
          exact pacc

/-- A task dispatched in a tick whose outcome is a success is recorded as
completed with its cost in the post-tick graph, whether or not the tick
triggers the cost governor. -/
theorem tick_records_dispatched (envT : String → TaskOutcome) (maxCost : ℚ)
    (s : LoopState) (hh : s.halted = false) (had : all_done s.graph = false)
    (hnd : NodupIds s.graph) (nid : String)
    (hmem : nid ∈ (get_ready_steps s.graph).filter
      (fun n => statusOf s.graph n == .pending))
    (c : ℚ) (hc : envT nid = .success c) :
    statusOf (tick envT maxCost s).1.graph nid = .completed ∧
    costOf (tick envT maxCost s).1.graph nid = c := by
  rcases tick_cases envT maxCost s with
    ⟨h1, _⟩ | ⟨_, h2, _⟩ |
    ⟨_, _, ready, g2, hready, hne, hg2, hbranch⟩ | ⟨_, _, hemp, _⟩
  · rw [h1] at hh; exact Bool.noConfusion hh
  · rw [h2] at had; exact Bool.noConfusion had
  · subst hready
    obtain ⟨hrnd, hrfacts⟩ := ready_facts s.graph hnd
    obtain ⟨m1, m2, m3, m4, m5, m6, m7, m8⟩ :=
      markFold_props _ s.graph _ rfl hnd hrnd hrfacts
    obtain ⟨r1, r2, r3, r4, r5, r6, r7⟩ :=
      recordFold_props envT _ _ g2 hg2 m1 hrnd m4
    obtain ⟨e1, e2⟩ := r5 nid hmem c hc
    rcases hbranch with ⟨_, heq⟩ | ⟨_, heq⟩ <;> rw [heq] <;> exact ⟨e1, e2⟩
  · rw [List.isEmpty_iff] at hemp
    rw [hemp] at hmem
    exact absurd hmem (List.not_mem_nil nid)

/-- Claim C2: after every dispatching tick the accumulated completed-task
cost is computed; the run transitions to cost_exceeded exactly when a
reading reaches the configured budget, and then exactly at the first such
reading — every earlier reading is strictly below the budget and no further
readings (hence no further scheduling) occur after it; tasks dispatched in
the triggering tick still have their results recorded; and the sequence of
readings never decreases. -/
theorem cost_governor_spec (env : Nat → String → TaskOutcome) (maxCost : ℚ)
    (fuel : Nat) (s0 : LoopState)
    (hstatus : s0.graphStatus = .running)
    (hnd : NodupIds s0.graph) (hcn : CostNonneg s0.graph)
    (henv : ∀ i n c, env i n = .success c → 0 ≤ c) :
    ((runLoop env maxCost fuel 0 s0).1.graphStatus = .cost_exceeded ↔
      ∃ a ∈ (runLoop env maxCost fuel 0 s0).2, maxCost ≤ a)
    ∧ ((runLoop env maxCost fuel 0 s0).1.graphStatus = .cost_exceeded →
      ∃ l a, (runLoop env maxCost fuel 0 s0).2 = l ++ [a] ∧ maxCost ≤ a ∧
        ∀ x ∈ l, x < maxCost)
    ∧ List.Chain' (· ≤ ·) (runLoop env maxCost fuel 0 s0).2
    ∧ (∀ (envT : String → TaskOutcome) (s : LoopState),
        s.halted = false → all_done s.graph = false → NodupIds s.graph →
        ∀ nid ∈ (get_ready_steps s.graph).filter
          (fun n => statusOf s.graph n == .pending),
        ∀ c, envT nid = .success c →
          statusOf (tick envT maxCost s).1.graph nid = .completed ∧
          costOf (tick envT maxCost s).1.graph nid = c) := by
  have hne : s0.graphStatus ≠ .cost_exceeded := by
    rw [hstatus]; exact fun h => GStatus.noConfusion h
  obtain ⟨t1, t2⟩ := runLoop_trigger env maxCost fuel 0 s0 hne
  refine ⟨⟨?_, ?_⟩, t1, (runLoop_chain env maxCost henv fuel 0 s0 hnd hcn).1, ?_⟩
  · intro hc
    obtain ⟨l, a, hl, ha, _⟩ := t1 hc
    refine ⟨a, ?_, ha⟩
    rw [hl]
    exact List.mem_append_right l (List.mem_singleton_self a)
  · rintro ⟨a, hmem, hle⟩
    by_contra hnc
    exact absurd hle (not_le.2 (t2 hnc a hmem))
  · intro envT s hh had hnds nid hmem c hc
    exact tick_records_dispatched envT maxCost s hh had hnds nid hmem c hc

theorem goodS_of_goodGraph (g : PGraph) (h : GoodGraph g) : GoodS g := by
  obtain ⟨hinv, hroot, hce, hnd⟩ := h
  refine ⟨?_, hroot, ?_, hnd⟩
  · intro n hs q hq
    cases hf : g.nodes.find? (fun t => t.id == n) with
    | none =>
      unfold statusOf at hs
      rw [hf] at hs
      rcases hs with h | h | h | h <;> exact Status.noConfusion h
    | some t =>
      have htid : t.id = n := by simpa using List.find?_some hf
      have hts : statusOf g n = t.status := by unfold statusOf; rw [hf]
      rw [hts] at hs
      have h2 := hinv t (List.mem_of_find?_eq_some hf) hs
      rw [htid] at h2
      exact h2 q hq
  · intro n
    cases hf : g.nodes.find? (fun t => t.id == n) with
    | none =>
      unfold statusOf
      rw [hf]
      exact fun h => Status.noConfusion h
    | some t =>
      have hts : statusOf g n = t.status := by unfold statusOf; rw [hf]
      rw [hts]
      exact hce t (List.mem_of_find?_eq_some hf)

theorem nodeIn_eq_any_ids (g : PGraph) (x : String) :
    nodeIn g x = (g.nodes.map (fun t => t.id)).any (fun i => i == x) := by
  unfold nodeIn
  induction g.nodes with
  | nil => rfl
  | cons a l ih => simp only [List.map_cons, List.any_cons, ih]

/-- Along any edge path from a failed or skipped task, no node is in a
started status (running, waiting for input, completed, or failed). -/
theorem invS_path_not_started (g : PGraph) (hg : GoodS g) (p n : String)
    (hpath : EdgePath g.edges p n) (hbad : BadStatus (statusOf g p)) :
    ¬ Started (statusOf g n) := by
  induction hpath with
  | single he =>
    intro hs
    have hpc := hg.1 _ hs p ((mem_predecessors g p _).2 he)
    rcases hbad with hb | hb <;> rw [hb] at hpc <;> exact Status.noConfusion hpc
  | tail hpm he ih =>
    intro hs
    have hpc := hg.1 _ hs _ ((mem_predecessors g _ _).2 he)
    exact ih (Or.inr (Or.inr (Or.inl hpc)))

/-- In a state satisfying the completion test, a node of the graph lying on
a path from a failed or skipped task is skipped. -/
theorem complete_path_skipped (g : PGraph) (hg : GoodS g)
    (hcomp : isComplete g = true) (p n : String)
    (hpath : EdgePath g.edges p n) (hbad : BadStatus (statusOf g p))
    (hin : nodeIn g n = true) :
    statusOf g n = .skipped := by
  have hns := invS_path_not_started g hg p n hpath hbad
  rcases (nodeIn_true_iff g n).1 hin with ⟨t, ht, htid⟩
  have hstat : statusOf g n = t.status := by
    rw [← htid, statusOf_eq_of_mem g t hg.2.2.2 ht]
  unfold isComplete at hcomp
  rw [List.all_eq_true] at hcomp
  have hcases := hcomp t ht
  by_cases hroot : t.id = "ROOT"
  · exfalso
    apply hns
    have hnr : n = "ROOT" := by rw [← htid, hroot]
    rw [hnr, hg.2.1]
    exact Or.inr (Or.inr (Or.inl rfl))
  · have hmem : ([Status.completed, .failed, .skipped, .cost_exceeded].contains
        t.status) = true := by
      rcases Bool.or_eq_true _ _ ▸ hcases with h | h
      · exact absurd (by simpa using h) hroot
      · exact h
    have hfour : t.status = .completed ∨ t.status = .failed ∨
        t.status = .skipped ∨ t.status = .cost_exceeded := by
      cases hts : t.status <;> rw [hts] at hmem <;> simp_all
    rcases hfour with h | h | h | h
    · exact absurd (show Started (statusOf g n) by
        rw [hstat, h]; exact Or.inr (Or.inr (Or.inl rfl))) hns
    · exact absurd (show Started (statusOf g n) by
        rw [hstat, h]; exact Or.inr (Or.inr (Or.inr rfl))) hns
    · rw [hstat, h]
    · exact absurd (by rw [hstat, h] : statusOf g n = .cost_exceeded) (hg.2.2.1 n)

/-- Reachability by ticks preserves the invariant bundle, the edge set, the
failed/skipped statuses, and the node id list. -/
theorem reach_props (s s2 : LoopState) (h : LoopReach s s2) (hg : GoodS s.graph) :
    GoodS s2.graph ∧ s2.graph.edges = s.graph.edges
    ∧ (∀ x, BadStatus (statusOf s.graph x) → statusOf s2.graph x = statusOf s.graph x)
    ∧ s2.graph.nodes.map (fun t => t.id) = s.graph.nodes.map (fun t => t.id) := by
  induction h with
  | refl => exact ⟨hg, rfl, fun x _ => rfl, rfl⟩
  | tail hab hstep ih =>
    obtain ⟨g1, e1, st1, ids1⟩ := ih
    obtain ⟨env2, mc2, heq⟩ := hstep
    obtain ⟨_, e2, st2, good2, _, _, ids2⟩ := tick_props env2 mc2 _ g1.2.2.2
    subst heq
    refine ⟨good2 g1, by rw [e2, e1], ?_, by rw [ids2, ids1]⟩
    intro x hb
    rw [st2 x (by rw [st1 x hb]; exact hb), st1 x hb]

/-- Claim C3: in every run of the execution loop (modelled as tick
reachability from a state whose graph satisfies the scheduler invariant),
once a task is failed or skipped, a transitive successor of it is never in
the running status, and whenever the loop reaches the completion test that
ends a run, every such successor has been marked skipped by the cascade. -/
theorem skip_cascade_spec (s0 s1 : LoopState) (p n : String)
    (hg : GoodGraph s0.graph)
    (hreach : LoopReach s0 s1)
    (hbad : statusOf s0.graph p = .failed ∨ statusOf s0.graph p = .skipped)
    (hpath : EdgePath s0.graph.edges p n)
    (hin : nodeIn s0.graph n = true) :
    statusOf s1.graph n ≠ .running
    ∧ (isComplete s1.graph = true → statusOf s1.graph n = .skipped) := by
  have hgs : GoodS s0.graph := goodS_of_goodGraph s0.graph hg
  obtain ⟨hg1, hedges, hstab, hids⟩ := reach_props s0 s1 hreach hgs
  have hbad1 : BadStatus (statusOf s1.graph p) := by
    rw [hstab p hbad]
    exact hbad
  have hpath1 : EdgePath s1.graph.edges p n := by rw [hedges]; exact hpath
  have hin1 : nodeIn s1.graph n = true := by
    rw [nodeIn_eq_any_ids, hids, ← nodeIn_eq_any_ids]
    exact hin
  constructor
  · intro hrun
    exact invS_path_not_started s1.graph hg1 p n hpath1 hbad1 (Or.inl hrun)
  · intro hcomp
    exact complete_path_skipped s1.graph hg1 hcomp p n hpath1 hbad1 hin1

/-- Witness for claim C2 at a concrete three-task chain with cost 3/10 per
task and a budget of 1/2. -/
theorem cost_governor_spec_witness :
    ((runLoop costEnvW (1/2) 10 0 costS0W).1.graphStatus = .cost_exceeded ↔
      ∃ a ∈ (runLoop costEnvW (1/2) 10 0 costS0W).2, (1/2 : ℚ) ≤ a)
    ∧ List.Chain' (· ≤ ·) (runLoop costEnvW (1/2) 10 0 costS0W).2 := by
  have h := cost_governor_spec costEnvW (1/2) 10 costS0W rfl
    (by unfold NodupIds; decide) (by unfold CostNonneg; decide)
    (fun i n c hc => by injection hc with h2; rw [← h2]; norm_num)
  exact ⟨h.1, h.2.2.1⟩

/-- Witness for claim C3: one tick from a graph with a failed task skips its
pending successor. -/
theorem skip_cascade_spec_witness :
    statusOf failS1W.graph "B" = .skipped := by
  have h := skip_cascade_spec failS0W failS1W "A" "B" (by unfold GoodGraph; decide)
    (Relation.ReflTransGen.single ⟨failEnvTW, 1/2, rfl⟩)
    (Or.inl (by decide)) (Relation.TransGen.single (by decide)) (by decide)
  exact h.2 (by decide)

/-- Witness for claim C5: a worker that always answers with a tool call runs
the 15 turns out and the step is a success carrying turn 15's output. -/
theorem react_turn_limit_soft_success_witness :
    (executeStep reactAgentW reactToolW).1 = .success (reactOW 15) :=
  react_turn_limit_soft_success reactAgentW reactToolW reactOW
    (fun t _ _ => ⟨rfl, rfl, Or.inl rfl⟩)

/-- Witness for claim C6: a tool that always errors never produces a step
failure, and the error text is folded into the next turn's context. -/
theorem tool_error_not_failure_witness :
    (∃ o, (executeStep c6AgentW c6ToolW).1 = .success o)
    ∧ reactAux c6AgentW c6ToolW 15 1 15 (buildAgentInput none none none) [] [] =
      reactAux c6AgentW c6ToolW 15 2 14
        (buildAgentInput
          (some "The tool execution failed. Try a different approach or tool.")
          (some c6OutW)
          (some (.vdict [("tool_result", .vstr "Error: boom")])))
        [c6OutW] [buildAgentInput none none none] := by
  have h := tool_error_not_failure c6AgentW c6ToolW
  exact ⟨h.1 (fun _ _ _ => ⟨c6OutW, rfl⟩),
    h.2 1 14 (buildAgentInput none none none) [] [] c6OutW "boom" rfl rfl rfl rfl⟩

/-- Witness for claim C7: an operation that always raises a retryable
timeout is attempted 3 times with delays 1 and 2 and the last exception is
raised. -/
theorem retry_with_backoff_spec_witness :
    retry_with_backoff retryFW = ⟨.raised ⟨true, "timeout"⟩, [1, 2], 3⟩ :=
  (retry_with_backoff_spec retryFW).2.2.2.1
    ⟨true, "timeout"⟩ ⟨true, "timeout"⟩ ⟨true, "timeout"⟩ rfl rfl rfl rfl rfl rfl

/-- Witness for claim C8 (amended): merging a single edge-less node wires it
from the bootstrap task and keeps the edge set duplicate-free. -/
theorem orphan_wiring_amended_witness :
    ("Query", "A") ∈ (mergePlan bootstrapGraph [⟨"A", none⟩] []).edges
    ∧ (mergePlan bootstrapGraph [⟨"A", none⟩] []).edges.Nodup := by
  have h := orphan_wiring_amended bootstrapGraph [⟨"A", none⟩] [] ⟨"A", none⟩
    (List.mem_singleton_self _)
  exact ⟨h.1 (by decide), h.2.2 (by decide)⟩

/-- Witness for claim C9: answering a concrete clarification question stores
the rich question-and-answer context under user_response and the status
trace is waiting_input, running, completed. -/
theorem clarification_resume_witness :
    (markDoneModel "ClarificationAgent" [] [("seed", .vint 1)]
        (.vdict [("clarificationMessage", .vstr "Which one?")])
        "the blue one" false).globalsMid.lookup "user_response" =
      some (.vstr "Agent Question: Which one?\nUser Answer: the blue one")
    ∧ (markDoneModel "ClarificationAgent" [] [("seed", .vint 1)]
        (.vdict [("clarificationMessage", .vstr "Which one?")])
        "the blue one" false).statusTrace =
      [.waiting_input, .running, .completed] :=
  clarification_resume "ClarificationAgent" [] [("seed", .vint 1)]
    (.vdict [("clarificationMessage", .vstr "Which one?")])
    "the blue one" "Which one?" "user_response" rfl rfl (Or.inr ⟨rfl, rfl⟩)

end ApexFlow
